import Mathlib

/-!
Verification of the depth-tree repository: a containment hierarchy over 2-D
shapes (`src/tree.rs`) plus a vector-path importer boundary
(`src/svg_imports.rs`).

Modelling conventions:
* `f32`/`f64` scalars are modelled as exact rationals `ℚ`; a possibly-NaN
  float (as produced by `Shape::area` before `partial_cmp`) is modelled as
  `Option ℚ` with `none` standing for NaN.
* The `rstar::RTree` child index is modelled as a `List` kept in insertion
  order: `RTree::insert` appends, iteration enumerates in that order, and
  `locate_all_at_point` filters by the `PointDistance` containment test
  (`distance_2 ≤ 0`), which is what rstar's selection reduces to for
  geometry whose points lie inside their own envelopes.
* Rust panics are modelled explicitly where a claim is about them
  (importer layer), and are otherwise unreachable for the modelled code.
-/

namespace DepthTree

/-- Two-dimensional point, modelling `[f32; 2]`. -/
abbrev Point : Type := ℚ × ℚ

/-- Axis-aligned bounding box `AABB<[f32; 2]>` as a (lower, upper) corner pair. -/
abbrev Aabb : Type := Point × Point

/-- The `Shape` trait of `src/tree.rs` (lines 5-11): containment test, point
test, bounding rectangle, representative (center) point and area. -/
structure ShapeOps (T : Type) where
  contains_shape : T → T → Bool
  contains_point : T → Point → Bool
  bounding_rect : T → Aabb
  center_point : T → Point
  area : T → ℚ

/-- `TreeNode<T>` (tree.rs lines 23-33): one shape value, cached bounding
rectangle, cached center point, the child spatial index (modelled as a list
in insertion order) and the cached area. -/
inductive TreeNode (T : Type) : Type where
  | mk : T → Aabb → Point → List (TreeNode T) → ℚ → TreeNode T

/-- The `value` field of a `TreeNode`. -/
def TreeNode.value {T : Type} : TreeNode T → T
  | .mk v _ _ _ _ => v

/-- The cached `bounding_rect` field of a `TreeNode`. -/
def TreeNode.bounding_rect {T : Type} : TreeNode T → Aabb
  | .mk _ bb _ _ _ => bb

/-- The cached `center_point` field of a `TreeNode`. -/
def TreeNode.center_point {T : Type} : TreeNode T → Point
  | .mk _ _ cp _ _ => cp

/-- The `children` field of a `TreeNode`. -/
def TreeNode.children {T : Type} : TreeNode T → List (TreeNode T)
  | .mk _ _ _ cs _ => cs

/-- The cached `area` field of a `TreeNode`. -/
def TreeNode.area {T : Type} : TreeNode T → ℚ
  | .mk _ _ _ _ a => a

/-- `Tree<T>` (tree.rs lines 15-21): an optional root node. -/
structure Tree (T : Type) where
  root : Option (TreeNode T)

mutual

/-- Number of nodes in a subtree (used as a termination measure). -/
def TreeNode.size {T : Type} : TreeNode T → Nat
  | .mk _ _ _ cs _ => 1 + sizeForest cs

/-- Number of nodes in a forest. -/
def sizeForest {T : Type} : List (TreeNode T) → Nat
  | [] => 0
  | c :: r => TreeNode.size c + sizeForest r

end

mutual

/-- All shape values stored in a subtree (the node's own value first). -/
def treeVals {T : Type} : TreeNode T → List T
  | .mk v _ _ cs _ => v :: forestVals cs

/-- All shape values stored in a forest. -/
def forestVals {T : Type} : List (TreeNode T) → List T
  | [] => []
  | c :: r => treeVals c ++ forestVals r

end

mutual

/-- All nodes of a subtree, the root of the subtree included. -/
def allNodes {T : Type} : TreeNode T → List (TreeNode T)
  | .mk v bb cp cs a => .mk v bb cp cs a :: allNodesF cs

/-- All nodes of a forest. -/
def allNodesF {T : Type} : List (TreeNode T) → List (TreeNode T)
  | [] => []
  | c :: r => allNodes c ++ allNodesF r

end

/-- Squared Euclidean distance between two points, as computed by rstar's
`Point::distance_2` on `[f32; 2]`. -/
def dist2 (a b : Point) : ℚ :=
  (a.1 - b.1) ^ 2 + (a.2 - b.2) ^ 2

/-- The `PointDistance::distance_2` implementation for `TreeNode`
(tree.rs lines 116-130): 0 if the node's shape contains the point, else the
squared distance from the cached center point to the point. -/
def nodeDist2 {T : Type} (ops : ShapeOps T) (n : TreeNode T) (p : Point) : ℚ :=
  if ops.contains_point n.value p then 0 else dist2 n.center_point p

/-- Whether `locate_all_at_point` yields this node for the query point: rstar's
default `PointDistance::contains_point`, i.e. `distance_2 ≤ 0`. -/
def locatedAt {T : Type} (ops : ShapeOps T) (n : TreeNode T) (p : Point) : Bool :=
  decide (nodeDist2 ops n p ≤ 0)

/-- `impl From<T> for TreeNode<T>` (tree.rs lines 132-148): cache the bounding
rectangle, center point and area of the value; children start empty. -/
def mkTreeNode {T : Type} (ops : ShapeOps T) (v : T) : TreeNode T :=
  .mk v (ops.bounding_rect v) (ops.center_point v) [] (ops.area v)

mutual

/-- `TreeNode::add_node_tree_node` (tree.rs lines 169-181): if this node's
shape contains the new element's shape, try the children located at the
element's cached center point in order, and if none accepts, insert the
element as a direct child; returns the updated node and whether the element
was accepted. A node that does not contain the element is returned unchanged
with `false`. -/
def addTN {T : Type} (ops : ShapeOps T) (elem : TreeNode T) :
    TreeNode T → TreeNode T × Bool
  | .mk v bb cp cs a =>
    if ops.contains_shape v elem.value then
      match addLoc ops elem cs with
      | (cs', true) => (.mk v bb cp cs' a, true)
      | (cs', false) => (.mk v bb cp (cs' ++ [elem]) a, true)
    else
      (.mk v bb cp cs a, false)

/-- The `locate_all_at_point_mut` loop inside `add_node_tree_node`: walk the
children in index order, attempting `addTN` on each child located at the
element's center point; stop at the first acceptance. -/
def addLoc {T : Type} (ops : ShapeOps T) (elem : TreeNode T) :
    List (TreeNode T) → List (TreeNode T) × Bool
  | [] => ([], false)
  | c :: rest =>
    if locatedAt ops c elem.center_point then
      match addTN ops elem c with
      | (c', true) => (c' :: rest, true)
      | (c', false) =>
        match addLoc ops elem rest with
        | (rest', ok) => (c' :: rest', ok)
    else
      match addLoc ops elem rest with
      | (rest', ok) => (c :: rest', ok)

end

/-- The loop of `TreeNode::add_node` (tree.rs lines 160-164): try
`add_node_tree_node` on every child in index order, stopping at the first
acceptance. -/
def addAll {T : Type} (ops : ShapeOps T) (elem : TreeNode T) :
    List (TreeNode T) → List (TreeNode T) × Bool
  | [] => ([], false)
  | c :: rest =>
    match addTN ops elem c with
    | (c', true) => (c' :: rest, true)
    | (c', false) =>
      match addAll ops elem rest with
      | (rest', ok) => (c' :: rest', ok)

/-- Effect of `TreeNode::add_node` on the child list: if no child accepted
the element, it is inserted as a direct child (tree.rs line 166). -/
def addChildren {T : Type} (ops : ShapeOps T) (cs : List (TreeNode T))
    (elem : TreeNode T) : List (TreeNode T) :=
  match addAll ops elem cs with
  | (cs', true) => cs'
  | (cs', false) => cs' ++ [elem]

/-- `TreeNode::add_node` (tree.rs lines 154-167); only the child list changes. -/
def addNodeCore {T : Type} (ops : ShapeOps T) (self : TreeNode T)
    (elem : TreeNode T) : TreeNode T :=
  match self with
  | .mk v bb cp cs a => .mk v bb cp (addChildren ops cs elem) a

/-- The root node built by `impl From<(Vec<T>, T)> for Tree<T>`
(tree.rs lines 65-83): the root's cached bounding rectangle, center point and
area are fixed to zeros regardless of the root value, then every shape is
added via `add_node` in the order given (no sorting). -/
def buildRootPair {T : Type} (ops : ShapeOps T) (shapes : List T) (rootVal : T) :
    TreeNode T :=
  shapes.foldl (fun r x => addNodeCore ops r (mkTreeNode ops x))
    (.mk rootVal (((0 : ℚ), (0 : ℚ)), ((0 : ℚ), (0 : ℚ))) ((0 : ℚ), (0 : ℚ)) [] 0)

/-- `impl From<(Vec<T>, T)> for Tree<T>` (tree.rs lines 65-83). -/
def fromPair {T : Type} (ops : ShapeOps T) (shapes : List T) (rootVal : T) :
    Tree T :=
  ⟨some (buildRootPair ops shapes rootVal)⟩

/-- `impl From<Vec<T>> for Tree<T>` (tree.rs lines 56-63): delegates to the
pair constructor with `T::default()` as the root value. -/
def fromVec {T : Type} (ops : ShapeOps T) (dflt : T) (shapes : List T) : Tree T :=
  fromPair ops shapes dflt

/-- Descending comparison on cached areas, mirroring the sort comparator
`|l, r| r.area.partial_cmp(&l.area).unwrap()` of tree.rs line 91 as the
boolean relation used by a stable sort. -/
def nodeAreaGe {T : Type} (l r : TreeNode T) : Bool :=
  decide (r.area ≤ l.area)

/-- `impl FromIterator<T> for Tree<T>` (tree.rs lines 85-101): map every
shape to a `TreeNode`, stable-sort the nodes by descending cached area, then
add them in order to a root node built from `T::default()`. -/
def fromIter {T : Type} (ops : ShapeOps T) (dflt : T) (shapes : List T) : Tree T :=
  ⟨some ((List.mergeSort (shapes.map (mkTreeNode ops)) nodeAreaGe).foldl
    (fun r n => addNodeCore ops r n) (mkTreeNode ops dflt))⟩

/-- Breadth-first traversal loop of `TreeNodeDepthIterator::next`
(tree.rs lines 216-233), run to exhaustion: pop the front `(depth, node)`
pair, enqueue the node's children at `depth + 1`, yield `(depth, value)`. -/
def bfsRef {T : Type} : List (Nat × TreeNode T) → List (Nat × T)
  | [] => []
  | (d, n) :: rest =>
    (d, n.value) :: bfsRef (rest ++ n.children.map (fun c => (d + 1, c)))
termination_by q => (q.map (fun e => e.2.size)).sum
decreasing_by
  simp only [List.map_append, List.sum_append, List.map_cons, List.sum_cons]
  have h : ((List.map (fun c => (d + 1, c)) n.children).map
      (fun e => TreeNode.size e.2)).sum < n.size := by
    rw [List.map_map]
    cases n with
    | mk v bb cp cs a =>
      simp only [TreeNode.children, TreeNode.size]
      induction cs with
      | nil => simp [sizeForest]
      | cons c r ih =>
        simp only [List.map_cons, List.sum_cons, sizeForest, Function.comp] at *
        omega
  omega

/-- Breadth-first traversal loop of `TreeNodeDepthIntoIterator::next`
(tree.rs lines 243-260), run to exhaustion: identical queue discipline over
owned nodes. -/
def bfsOwn {T : Type} : List (Nat × TreeNode T) → List (Nat × T)
  | [] => []
  | (d, n) :: rest =>
    (d, n.value) :: bfsOwn (rest ++ n.children.map (fun c => (d + 1, c)))
termination_by q => (q.map (fun e => e.2.size)).sum
decreasing_by
  simp only [List.map_append, List.sum_append, List.map_cons, List.sum_cons]
  have h : ((List.map (fun c => (d + 1, c)) n.children).map
      (fun e => TreeNode.size e.2)).sum < n.size := by
    rw [List.map_map]
    cases n with
    | mk v bb cp cs a =>
      simp only [TreeNode.children, TreeNode.size]
      induction cs with
      | nil => simp [sizeForest]
      | cons c r ih =>
        simp only [List.map_cons, List.sum_cons, sizeForest, Function.comp] at *
        omega
  omega

/-- `TreeNode::iter` (tree.rs lines 183-189) followed by draining the
borrowing iterator: seed the queue with the direct children at depth 0. -/
def TreeNode.iterSeq {T : Type} (n : TreeNode T) : List (Nat × T) :=
  bfsRef (n.children.map (fun c => (0, c)))

/-- `Tree::iter` (tree.rs lines 41-49) drained: empty when there is no root. -/
def Tree.iterSeq {T : Type} : Tree T → List (Nat × T)
  | ⟨some r⟩ => r.iterSeq
  | ⟨none⟩ => []

/-- `impl IntoIterator for Tree<T>` (tree.rs lines 262-283) drained: seed the
queue with the root's children at depth 0 and run the consuming iterator. -/
def Tree.intoIterSeq {T : Type} : Tree T → List (Nat × T)
  | ⟨some r⟩ => bfsOwn (r.children.map (fun c => (0, c)))
  | ⟨none⟩ => []

/-- Direct children of the root node of a tree (empty when no root). -/
def Tree.rootChildren {T : Type} : Tree T → List (TreeNode T)
  | ⟨some r⟩ => r.children
  | ⟨none⟩ => []

mutual

/-- Depth annotation following the spec's wording: a node's depth is the
number of proper ancestors it has with the root excluded, so a forest of the
root's direct children starts at depth `d = 0` and children get `d + 1`. -/
def specDepthsT {T : Type} (d : Nat) : TreeNode T → List (Nat × T)
  | .mk v _ _ cs _ => (d, v) :: specDepthsF (d + 1) cs

/-- Depth annotation of a whole forest at a common depth `d`. -/
def specDepthsF {T : Type} (d : Nat) : List (TreeNode T) → List (Nat × T)
  | [] => []
  | c :: r => specDepthsT d c ++ specDepthsF d r

end

/-! ## Basic equations and accessor lemmas -/

@[simp] theorem TreeNode.value_mk {T : Type} (v : T) (bb : Aabb) (cp : Point)
    (cs : List (TreeNode T)) (a : ℚ) : (TreeNode.mk v bb cp cs a).value = v := rfl

@[simp] theorem TreeNode.bounding_rect_mk {T : Type} (v : T) (bb : Aabb) (cp : Point)
    (cs : List (TreeNode T)) (a : ℚ) : (TreeNode.mk v bb cp cs a).bounding_rect = bb := rfl

@[simp] theorem TreeNode.center_point_mk {T : Type} (v : T) (bb : Aabb) (cp : Point)
    (cs : List (TreeNode T)) (a : ℚ) : (TreeNode.mk v bb cp cs a).center_point = cp := rfl

@[simp] theorem TreeNode.children_mk {T : Type} (v : T) (bb : Aabb) (cp : Point)
    (cs : List (TreeNode T)) (a : ℚ) : (TreeNode.mk v bb cp cs a).children = cs := rfl

@[simp] theorem TreeNode.area_mk {T : Type} (v : T) (bb : Aabb) (cp : Point)
    (cs : List (TreeNode T)) (a : ℚ) : (TreeNode.mk v bb cp cs a).area = a := rfl

@[simp] theorem size_mk {T : Type} (v : T) (bb : Aabb) (cp : Point)
    (cs : List (TreeNode T)) (a : ℚ) :
    (TreeNode.mk v bb cp cs a).size = 1 + sizeForest cs := by
  rw [TreeNode.size]

@[simp] theorem sizeForest_nil {T : Type} : sizeForest ([] : List (TreeNode T)) = 0 := by
  rw [sizeForest]

@[simp] theorem sizeForest_cons {T : Type} (c : TreeNode T) (r : List (TreeNode T)) :
    sizeForest (c :: r) = c.size + sizeForest r := by
  rw [sizeForest]

@[simp] theorem treeVals_mk {T : Type} (v : T) (bb : Aabb) (cp : Point)
    (cs : List (TreeNode T)) (a : ℚ) :
    treeVals (TreeNode.mk v bb cp cs a) = v :: forestVals cs := by
  rw [treeVals]

@[simp] theorem forestVals_nil {T : Type} : forestVals ([] : List (TreeNode T)) = [] := by
  rw [forestVals]

@[simp] theorem forestVals_cons {T : Type} (c : TreeNode T) (r : List (TreeNode T)) :
    forestVals (c :: r) = treeVals c ++ forestVals r := by
  rw [forestVals]

theorem forestVals_append {T : Type} (l₁ l₂ : List (TreeNode T)) :
    forestVals (l₁ ++ l₂) = forestVals l₁ ++ forestVals l₂ := by
  induction l₁ with
  | nil => simp
  | cons c r ih => simp [ih]

@[simp] theorem allNodes_mk {T : Type} (v : T) (bb : Aabb) (cp : Point)
    (cs : List (TreeNode T)) (a : ℚ) :
    allNodes (TreeNode.mk v bb cp cs a) = TreeNode.mk v bb cp cs a :: allNodesF cs := by
  rw [allNodes]

@[simp] theorem allNodesF_nil {T : Type} : allNodesF ([] : List (TreeNode T)) = [] := by
  rw [allNodesF]

@[simp] theorem allNodesF_cons {T : Type} (c : TreeNode T) (r : List (TreeNode T)) :
    allNodesF (c :: r) = allNodes c ++ allNodesF r := by
  rw [allNodesF]

theorem allNodesF_append {T : Type} (l₁ l₂ : List (TreeNode T)) :
    allNodesF (l₁ ++ l₂) = allNodesF l₁ ++ allNodesF l₂ := by
  induction l₁ with
  | nil => simp
  | cons c r ih => simp [ih]

@[simp] theorem specDepthsT_mk {T : Type} (d : Nat) (v : T) (bb : Aabb) (cp : Point)
    (cs : List (TreeNode T)) (a : ℚ) :
    specDepthsT d (TreeNode.mk v bb cp cs a) = (d, v) :: specDepthsF (d + 1) cs := by
  rw [specDepthsT]

@[simp] theorem specDepthsF_nil {T : Type} (d : Nat) :
    specDepthsF d ([] : List (TreeNode T)) = [] := by
  rw [specDepthsF]

@[simp] theorem specDepthsF_cons {T : Type} (d : Nat) (c : TreeNode T)
    (r : List (TreeNode T)) :
    specDepthsF d (c :: r) = specDepthsT d c ++ specDepthsF d r := by
  rw [specDepthsF]

theorem specDepthsF_append {T : Type} (d : Nat) (l₁ l₂ : List (TreeNode T)) :
    specDepthsF d (l₁ ++ l₂) = specDepthsF d l₁ ++ specDepthsF d l₂ := by
  induction l₁ with
  | nil => simp
  | cons c r ih => simp [ih]

/-! ## Size-based strong induction -/

theorem treeNodeSizeInd {T : Type} {P : TreeNode T → Prop}
    (step : ∀ n : TreeNode T, (∀ m : TreeNode T, m.size < n.size → P m) → P n) :
    ∀ n : TreeNode T, P n := by
  have h : ∀ k : Nat, ∀ n : TreeNode T, n.size ≤ k → P n := by
    intro k
    induction k with
    | zero =>
      intro n hn
      exact step n (fun m hm => absurd (Nat.lt_of_lt_of_le hm hn) (Nat.not_lt_zero _))
    | succ k ih =>
      intro n hn
      exact step n (fun m hm => ih m (Nat.le_of_lt_succ (Nat.lt_of_lt_of_le hm hn)))
  exact fun n => h n.size n (Nat.le_refl _)

theorem size_le_of_mem_forest {T : Type} {c : TreeNode T} :
    ∀ {cs : List (TreeNode T)}, c ∈ cs → c.size ≤ sizeForest cs := by
  intro cs h
  induction cs with
  | nil => cases h
  | cons x r ih =>
    rcases List.mem_cons.mp h with h | h
    · subst h
      rw [sizeForest_cons]
      exact Nat.le_add_right _ _
    · have h2 := ih h
      rw [sizeForest_cons]
      omega

theorem size_lt_of_mem_children {T : Type} {c : TreeNode T} {v : T} {bb : Aabb}
    {cp : Point} {cs : List (TreeNode T)} {a : ℚ} (h : c ∈ cs) :
    c.size < (TreeNode.mk v bb cp cs a).size := by
  have := size_le_of_mem_forest h
  simp
  omega

/-! ## Basic behaviour of the insertion functions -/

theorem addTN_not_contains {T : Type} (ops : ShapeOps T) (elem n : TreeNode T)
    (h : ops.contains_shape n.value elem.value = false) :
    addTN ops elem n = (n, false) := by
  cases n with
  | mk v bb cp cs a =>
    simp only [TreeNode.value_mk] at h
    rw [addTN]
    simp [h]

theorem addTN_contains_acc {T : Type} (ops : ShapeOps T) (elem : TreeNode T)
    {v : T} {bb : Aabb} {cp : Point} {cs cs' : List (TreeNode T)} {a : ℚ}
    (h : ops.contains_shape v elem.value = true)
    (h1 : addLoc ops elem cs = (cs', true)) :
    addTN ops elem (TreeNode.mk v bb cp cs a) = (TreeNode.mk v bb cp cs' a, true) := by
  rw [addTN, h, h1]
  simp

theorem addTN_contains_rej {T : Type} (ops : ShapeOps T) (elem : TreeNode T)
    {v : T} {bb : Aabb} {cp : Point} {cs cs' : List (TreeNode T)} {a : ℚ}
    (h : ops.contains_shape v elem.value = true)
    (h1 : addLoc ops elem cs = (cs', false)) :
    addTN ops elem (TreeNode.mk v bb cp cs a) =
      (TreeNode.mk v bb cp (cs' ++ [elem]) a, true) := by
  rw [addTN, h, h1]
  simp

theorem addTN_contains_snd {T : Type} (ops : ShapeOps T) (elem n : TreeNode T)
    (h : ops.contains_shape n.value elem.value = true) :
    (addTN ops elem n).2 = true := by
  cases n with
  | mk v bb cp cs a =>
    simp only [TreeNode.value_mk] at h
    rcases h2 : addLoc ops elem cs with ⟨cs', ok⟩
    cases ok
    · rw [addTN_contains_rej ops elem h h2]
    · rw [addTN_contains_acc ops elem h h2]

theorem addTN_snd_false {T : Type} (ops : ShapeOps T) (elem n : TreeNode T)
    (h : (addTN ops elem n).2 = false) : (addTN ops elem n).1 = n := by
  cases hc : ops.contains_shape n.value elem.value
  · rw [addTN_not_contains ops elem n hc]
  · rw [addTN_contains_snd ops elem n hc] at h
    cases h

theorem addTN_fields {T : Type} (ops : ShapeOps T) (elem n : TreeNode T) :
    (addTN ops elem n).1.value = n.value ∧
    (addTN ops elem n).1.bounding_rect = n.bounding_rect ∧
    (addTN ops elem n).1.center_point = n.center_point ∧
    (addTN ops elem n).1.area = n.area := by
  cases n with
  | mk v bb cp cs a =>
    cases hc : ops.contains_shape v elem.value
    · rw [addTN_not_contains ops elem _ (by simpa using hc)]
      simp
    · rcases h2 : addLoc ops elem cs with ⟨cs', ok⟩
      cases ok
      · rw [addTN_contains_rej ops elem hc h2]; simp
      · rw [addTN_contains_acc ops elem hc h2]; simp

@[simp] theorem addLoc_nil {T : Type} (ops : ShapeOps T) (elem : TreeNode T) :
    addLoc ops elem [] = ([], false) := by
  rw [addLoc]

theorem addLoc_cons_skip {T : Type} (ops : ShapeOps T) (elem c : TreeNode T)
    (rest : List (TreeNode T)) (hl : locatedAt ops c elem.center_point = false) :
    addLoc ops elem (c :: rest) =
      (c :: (addLoc ops elem rest).1, (addLoc ops elem rest).2) := by
  rw [addLoc, hl]
  simp

theorem addLoc_cons_acc {T : Type} (ops : ShapeOps T) (elem c : TreeNode T)
    {c' : TreeNode T} (rest : List (TreeNode T))
    (hl : locatedAt ops c elem.center_point = true)
    (h1 : addTN ops elem c = (c', true)) :
    addLoc ops elem (c :: rest) = (c' :: rest, true) := by
  rw [addLoc, hl, h1]
  simp

theorem addLoc_cons_rej {T : Type} (ops : ShapeOps T) (elem c : TreeNode T)
    {c' : TreeNode T} (rest : List (TreeNode T))
    (hl : locatedAt ops c elem.center_point = true)
    (h1 : addTN ops elem c = (c', false)) :
    addLoc ops elem (c :: rest) =
      (c' :: (addLoc ops elem rest).1, (addLoc ops elem rest).2) := by
  rw [addLoc, hl, h1]
  simp

@[simp] theorem addAll_nil {T : Type} (ops : ShapeOps T) (elem : TreeNode T) :
    addAll ops elem [] = ([], false) := by
  rw [addAll]

theorem addAll_cons_acc {T : Type} (ops : ShapeOps T) (elem c : TreeNode T)
    {c' : TreeNode T} (rest : List (TreeNode T))
    (h1 : addTN ops elem c = (c', true)) :
    addAll ops elem (c :: rest) = (c' :: rest, true) := by
  rw [addAll, h1]

theorem addAll_cons_rej {T : Type} (ops : ShapeOps T) (elem c : TreeNode T)
    {c' : TreeNode T} (rest : List (TreeNode T))
    (h1 : addTN ops elem c = (c', false)) :
    addAll ops elem (c :: rest) =
      (c' :: (addAll ops elem rest).1, (addAll ops elem rest).2) := by
  rw [addAll, h1]

theorem addLoc_snd_false {T : Type} (ops : ShapeOps T) (elem : TreeNode T) :
    ∀ cs : List (TreeNode T),
      (addLoc ops elem cs).2 = false → (addLoc ops elem cs).1 = cs := by
  intro cs
  induction cs with
  | nil => intro h; simp
  | cons c rest ih =>
    intro h
    cases hl : locatedAt ops c elem.center_point
    · rw [addLoc_cons_skip ops elem c rest hl] at h ⊢
      simp only at h ⊢
      rw [ih h]
    · rcases h1 : addTN ops elem c with ⟨c', ok⟩
      cases ok
      · have hc' : c' = c := by
          have h2 : (addTN ops elem c).2 = false := by rw [h1]
          have h3 := addTN_snd_false ops elem c h2
          rw [h1] at h3
          exact h3
        rw [addLoc_cons_rej ops elem c rest hl h1] at h ⊢
        simp only at h ⊢
        rw [hc', ih h]
      · rw [addLoc_cons_acc ops elem c rest hl h1] at h
        simp at h

theorem addAll_snd_false {T : Type} (ops : ShapeOps T) (elem : TreeNode T) :
    ∀ cs : List (TreeNode T),
      (addAll ops elem cs).2 = false → (addAll ops elem cs).1 = cs := by
  intro cs
  induction cs with
  | nil => intro h; simp
  | cons c rest ih =>
    intro h
    rcases h1 : addTN ops elem c with ⟨c', ok⟩
    cases ok
    · have hc' : c' = c := by
        have h2 : (addTN ops elem c).2 = false := by rw [h1]
        have h3 := addTN_snd_false ops elem c h2
        rw [h1] at h3
        exact h3
      rw [addAll_cons_rej ops elem c rest h1] at h ⊢
      simp only at h ⊢
      rw [hc', ih h]
    · rw [addAll_cons_acc ops elem c rest h1] at h
      simp at h

/-! ## Value tracking: insertion adds exactly the new element's values -/

@[simp] theorem treeVals_mkTreeNode {T : Type} (ops : ShapeOps T) (x : T) :
    treeVals (mkTreeNode ops x) = [x] := by
  rw [mkTreeNode, treeVals_mk, forestVals_nil]

@[simp] theorem mkTreeNode_value {T : Type} (ops : ShapeOps T) (x : T) :
    (mkTreeNode ops x).value = x := rfl

@[simp] theorem mkTreeNode_children {T : Type} (ops : ShapeOps T) (x : T) :
    (mkTreeNode ops x).children = [] := rfl

theorem addLoc_vals_aux {T : Type} (ops : ShapeOps T) (elem : TreeNode T)
    (cs : List (TreeNode T))
    (IH : ∀ c ∈ cs, (addTN ops elem c).2 = true →
      (treeVals (addTN ops elem c).1).Perm (treeVals c ++ treeVals elem)) :
    (addLoc ops elem cs).2 = true →
      (forestVals (addLoc ops elem cs).1).Perm (forestVals cs ++ treeVals elem) := by
  induction cs with
  | nil => simp
  | cons c rest ih =>
    have IHrest : ∀ c' ∈ rest, (addTN ops elem c').2 = true →
        (treeVals (addTN ops elem c').1).Perm (treeVals c' ++ treeVals elem) :=
      fun c' hc' => IH c' (List.mem_cons_of_mem _ hc')
    cases hl : locatedAt ops c elem.center_point
    · rw [addLoc_cons_skip ops elem c rest hl]
      intro h
      simp only at h
      have h2 := ih IHrest h
      simp only [forestVals_cons, List.append_assoc]
      exact h2.append_left _
    · rcases h1 : addTN ops elem c with ⟨c', ok⟩
      cases ok
      · have hc' : c' = c := by
          have h2 : (addTN ops elem c).2 = false := by rw [h1]
          have h3 := addTN_snd_false ops elem c h2
          rw [h1] at h3
          exact h3
        rw [hc'] at h1
        rw [addLoc_cons_rej ops elem c rest hl h1]
        intro h
        simp only at h
        have h2 := ih IHrest h
        simp only [forestVals_cons, List.append_assoc]
        exact h2.append_left _
      · rw [addLoc_cons_acc ops elem c rest hl h1]
        intro _
        have h2 : (treeVals c').Perm (treeVals c ++ treeVals elem) := by
          have h3 := IH c (List.mem_cons_self c rest) (by rw [h1])
          rw [h1] at h3
          exact h3
        simp only [forestVals_cons]
        refine (h2.append_right (forestVals rest)).trans ?_
        rw [List.append_assoc, List.append_assoc]
        exact List.Perm.append_left _ List.perm_append_comm

theorem addTN_vals {T : Type} (ops : ShapeOps T) (elem : TreeNode T) :
    ∀ n : TreeNode T, (addTN ops elem n).2 = true →
      (treeVals (addTN ops elem n).1).Perm (treeVals n ++ treeVals elem) := by
  refine treeNodeSizeInd ?_
  intro n IHsize
  cases n with
  | mk v bb cp cs a =>
    intro hok
    have IH : ∀ c ∈ cs, (addTN ops elem c).2 = true →
        (treeVals (addTN ops elem c).1).Perm (treeVals c ++ treeVals elem) :=
      fun c hc => IHsize c (size_lt_of_mem_children hc)
    cases hc : ops.contains_shape v elem.value
    · rw [addTN_not_contains ops elem _ (by simpa using hc)] at hok
      simp at hok
    · rcases h2 : addLoc ops elem cs with ⟨cs', ok⟩
      cases ok
      · have hcs : cs' = cs := by
          have h3 := addLoc_snd_false ops elem cs (by rw [h2])
          rw [h2] at h3
          exact h3
        subst hcs
        rw [addTN_contains_rej ops elem hc h2]
        simp only [treeVals_mk, forestVals_append, List.cons_append]
        refine List.Perm.cons v ?_
        simp
      · rw [addTN_contains_acc ops elem hc h2]
        have h3 := addLoc_vals_aux ops elem cs IH (by rw [h2])
        rw [h2] at h3
        simp only [treeVals_mk, List.cons_append]
        exact List.Perm.cons v h3

theorem addAll_vals {T : Type} (ops : ShapeOps T) (elem : TreeNode T) :
    ∀ cs : List (TreeNode T), (addAll ops elem cs).2 = true →
      (forestVals (addAll ops elem cs).1).Perm (forestVals cs ++ treeVals elem) := by
  intro cs
  induction cs with
  | nil => simp
  | cons c rest ih =>
    rcases h1 : addTN ops elem c with ⟨c', ok⟩
    cases ok
    · have hc' : c' = c := by
        have h2 : (addTN ops elem c).2 = false := by rw [h1]
        have h3 := addTN_snd_false ops elem c h2
        rw [h1] at h3
        exact h3
      rw [hc'] at h1
      rw [addAll_cons_rej ops elem c rest h1]
      intro h
      simp only at h
      have h2 := ih h
      simp only [forestVals_cons, List.append_assoc]
      exact h2.append_left _
    · rw [addAll_cons_acc ops elem c rest h1]
      intro _
      have h2 : (treeVals c').Perm (treeVals c ++ treeVals elem) := by
        have h3 := addTN_vals ops elem c (by rw [h1])
        rw [h1] at h3
        exact h3
      simp only [forestVals_cons]
      refine (h2.append_right (forestVals rest)).trans ?_
      rw [List.append_assoc, List.append_assoc]
      exact List.Perm.append_left _ List.perm_append_comm

theorem addChildren_eq_acc {T : Type} {ops : ShapeOps T} {elem : TreeNode T}
    {cs cs' : List (TreeNode T)} (h : addAll ops elem cs = (cs', true)) :
    addChildren ops cs elem = cs' := by
  rw [addChildren, h]

theorem addChildren_eq_rej {T : Type} {ops : ShapeOps T} {elem : TreeNode T}
    {cs cs' : List (TreeNode T)} (h : addAll ops elem cs = (cs', false)) :
    addChildren ops cs elem = cs' ++ [elem] := by
  rw [addChildren, h]

theorem addChildren_vals {T : Type} (ops : ShapeOps T) (elem : TreeNode T)
    (cs : List (TreeNode T)) :
    (forestVals (addChildren ops cs elem)).Perm (forestVals cs ++ treeVals elem) := by
  rcases h : addAll ops elem cs with ⟨cs', ok⟩
  cases ok
  · have hcs : cs' = cs := by
      have h3 := addAll_snd_false ops elem cs (by rw [h])
      rw [h] at h3
      exact h3
    subst hcs
    rw [addChildren_eq_rej h, forestVals_append]
    simp
  · rw [addChildren_eq_acc h]
    have h2 := addAll_vals ops elem cs (by rw [h])
    rw [h] at h2
    exact h2

/-! ## Decomposing the fold that builds a tree -/

theorem addNodeCore_mk {T : Type} (ops : ShapeOps T) (v : T) (bb : Aabb) (cp : Point)
    (cs : List (TreeNode T)) (a : ℚ) (elem : TreeNode T) :
    addNodeCore ops (TreeNode.mk v bb cp cs a) elem =
      TreeNode.mk v bb cp (addChildren ops cs elem) a := by
  rw [addNodeCore]

theorem foldl_addNodeCore_mk {T : Type} (ops : ShapeOps T) :
    ∀ (ns : List (TreeNode T)) (v : T) (bb : Aabb) (cp : Point)
      (cs : List (TreeNode T)) (a : ℚ),
      ns.foldl (addNodeCore ops) (TreeNode.mk v bb cp cs a) =
        TreeNode.mk v bb cp (ns.foldl (addChildren ops) cs) a := by
  intro ns
  induction ns with
  | nil => intros; rfl
  | cons n rest ih =>
    intro v bb cp cs a
    rw [List.foldl_cons, addNodeCore_mk, ih, List.foldl_cons]

/-- The child forest built by folding `add_node` over a list of nodes. -/
def rootForest {T : Type} (ops : ShapeOps T) (ns : List (TreeNode T)) :
    List (TreeNode T) :=
  ns.foldl (addChildren ops) []

theorem buildRootPair_eq {T : Type} (ops : ShapeOps T) (shapes : List T)
    (rootVal : T) :
    buildRootPair ops shapes rootVal =
      TreeNode.mk rootVal (((0 : ℚ), (0 : ℚ)), ((0 : ℚ), (0 : ℚ))) ((0 : ℚ), (0 : ℚ))
        (rootForest ops (shapes.map (mkTreeNode ops))) 0 := by
  rw [buildRootPair, rootForest]
  rw [← List.foldl_map (mkTreeNode ops) (addNodeCore ops) shapes]
  exact foldl_addNodeCore_mk ops (shapes.map (mkTreeNode ops)) _ _ _ _ _

theorem fromIter_root_eq {T : Type} (ops : ShapeOps T) (dflt : T) (shapes : List T) :
    fromIter ops dflt shapes =
      ⟨some (TreeNode.mk dflt (ops.bounding_rect dflt) (ops.center_point dflt)
        (rootForest ops (List.mergeSort (shapes.map (mkTreeNode ops)) nodeAreaGe))
        (ops.area dflt))⟩ := by
  rw [fromIter, rootForest, mkTreeNode]
  rw [foldl_addNodeCore_mk ops _ _ _ _ _ _]

theorem rootForest_vals {T : Type} (ops : ShapeOps T) :
    ∀ (ns : List (TreeNode T)) (cs : List (TreeNode T)),
      (forestVals (ns.foldl (addChildren ops) cs)).Perm
        (forestVals cs ++ ns.flatMap treeVals) := by
  intro ns
  induction ns with
  | nil => intro cs; simp
  | cons n rest ih =>
    intro cs
    rw [List.foldl_cons, List.flatMap_cons]
    refine (ih _).trans ?_
    refine List.Perm.trans ((addChildren_vals ops n cs).append_right _) ?_
    rw [List.append_assoc]

theorem flatMap_treeVals_map_mk {T : Type} (ops : ShapeOps T) (shapes : List T) :
    (shapes.map (mkTreeNode ops)).flatMap treeVals = shapes := by
  induction shapes with
  | nil => simp
  | cons x rest ih => simp [ih]

theorem buildRootPair_children_vals {T : Type} (ops : ShapeOps T) (shapes : List T)
    (rootVal : T) :
    (forestVals (buildRootPair ops shapes rootVal).children).Perm shapes := by
  rw [buildRootPair_eq, TreeNode.children_mk, rootForest]
  have h := rootForest_vals ops (shapes.map (mkTreeNode ops)) []
  rw [forestVals_nil, List.nil_append, flatMap_treeVals_map_mk] at h
  exact h

/-! ## Breadth-first traversal lemmas -/

/-- Total node count of a traversal queue (termination measure). -/
def queueSize {T : Type} (q : List (Nat × TreeNode T)) : Nat :=
  (q.map (fun e => e.2.size)).sum

theorem queueInd {T : Type} {P : List (Nat × TreeNode T) → Prop}
    (step : ∀ q, (∀ q', queueSize q' < queueSize q → P q') → P q) : ∀ q, P q := by
  have h : ∀ k : Nat, ∀ q, queueSize q ≤ k → P q := by
    intro k
    induction k with
    | zero =>
      intro q hq
      exact step q (fun q' hq' => absurd (Nat.lt_of_lt_of_le hq' hq) (Nat.not_lt_zero _))
    | succ k ih =>
      intro q hq
      exact step q (fun q' hq' => ih q' (Nat.le_of_lt_succ (Nat.lt_of_lt_of_le hq' hq)))
  exact fun q => h (queueSize q) q (Nat.le_refl _)

theorem queueSize_append {T : Type} (q₁ q₂ : List (Nat × TreeNode T)) :
    queueSize (q₁ ++ q₂) = queueSize q₁ + queueSize q₂ := by
  simp [queueSize]

theorem queueSize_children_map {T : Type} (d : Nat) :
    ∀ cs : List (TreeNode T),
      queueSize (cs.map (fun c => (d, c))) = sizeForest cs := by
  intro cs
  induction cs with
  | nil => simp [queueSize]
  | cons c r ih => simp [queueSize] at ih ⊢; omega

theorem queueSize_step {T : Type} (d : Nat) (n : TreeNode T)
    (rest : List (Nat × TreeNode T)) :
    queueSize (rest ++ n.children.map (fun c => (d + 1, c))) <
      queueSize ((d, n) :: rest) := by
  rw [queueSize_append, queueSize_children_map]
  cases n with
  | mk v bb cp cs a =>
    simp [queueSize]
    omega

theorem bfsRef_nil {T : Type} : bfsRef ([] : List (Nat × TreeNode T)) = [] := by
  rw [bfsRef]

theorem bfsRef_cons {T : Type} (d : Nat) (n : TreeNode T)
    (rest : List (Nat × TreeNode T)) :
    bfsRef ((d, n) :: rest) =
      (d, n.value) :: bfsRef (rest ++ n.children.map (fun c => (d + 1, c))) := by
  rw [bfsRef]

theorem bfsOwn_nil {T : Type} : bfsOwn ([] : List (Nat × TreeNode T)) = [] := by
  rw [bfsOwn]

theorem bfsOwn_cons {T : Type} (d : Nat) (n : TreeNode T)
    (rest : List (Nat × TreeNode T)) :
    bfsOwn ((d, n) :: rest) =
      (d, n.value) :: bfsOwn (rest ++ n.children.map (fun c => (d + 1, c))) := by
  rw [bfsOwn]

theorem bfsRef_eq_bfsOwn {T : Type} : ∀ q : List (Nat × TreeNode T), bfsRef q = bfsOwn q := by
  refine queueInd ?_
  intro q IH
  match q with
  | [] => rw [bfsRef_nil, bfsOwn_nil]
  | (d, n) :: rest =>
    rw [bfsRef_cons, bfsOwn_cons, IH _ (queueSize_step d n rest)]

theorem flatMap_specDepths_map {T : Type} (d : Nat) :
    ∀ cs : List (TreeNode T),
      ((cs.map (fun c => (d, c))).flatMap (fun e => specDepthsT e.1 e.2)) =
        specDepthsF d cs := by
  intro cs
  induction cs with
  | nil => simp
  | cons c r ih => simp [ih]

theorem bfsRef_perm_spec {T : Type} :
    ∀ q : List (Nat × TreeNode T),
      (bfsRef q).Perm (q.flatMap (fun e => specDepthsT e.1 e.2)) := by
  refine queueInd ?_
  intro q IH
  match q with
  | [] => rw [bfsRef_nil]; simp
  | (d, n) :: rest =>
    rw [bfsRef_cons]
    have h := IH _ (queueSize_step d n rest)
    rw [List.flatMap_append, flatMap_specDepths_map] at h
    cases n with
    | mk v bb cp cs a =>
      simp only [List.flatMap_cons, specDepthsT_mk, TreeNode.value_mk,
        TreeNode.children_mk, List.cons_append]
      refine List.Perm.cons (d, v) ?_
      simp only [TreeNode.children_mk] at h
      exact h.trans List.perm_append_comm

theorem bfsRef_lower_bound {T : Type} (m : Nat) :
    ∀ q : List (Nat × TreeNode T), (∀ e ∈ q, m ≤ e.1) →
      ∀ x ∈ bfsRef q, m ≤ x.1 := by
  refine queueInd ?_
  intro q IH
  match q with
  | [] => intro _ x hx; rw [bfsRef_nil] at hx; cases hx
  | (d, n) :: rest =>
    intro hq x hx
    rw [bfsRef_cons] at hx
    rcases List.mem_cons.mp hx with hx | hx
    · subst hx
      exact hq (d, n) (List.mem_cons_self _ _)
    · refine IH _ (queueSize_step d n rest) ?_ x hx
      intro e he
      rcases List.mem_append.mp he with he | he
      · exact hq e (List.mem_cons_of_mem _ he)
      · rcases List.mem_map.mp he with ⟨c, _, hc⟩
        have hd := hq (d, n) (List.mem_cons_self _ _)
        subst hc
        omega

theorem pairwiseLeConst {T : Type} (d : Nat) (cs : List (TreeNode T)) :
    (cs.map (fun c => (d, c))).Pairwise
      (fun e f : Nat × TreeNode T => e.1 ≤ f.1) := by
  induction cs with
  | nil => simp
  | cons c r ih =>
    simp only [List.map_cons, List.pairwise_cons]
    refine ⟨?_, ih⟩
    intro e he
    rcases List.mem_map.mp he with ⟨c', _, hc⟩
    subst hc
    exact Nat.le_refl _

theorem fst_of_mem_depth_map {T : Type} {d : Nat} {cs : List (TreeNode T)}
    {e : Nat × TreeNode T} (he : e ∈ cs.map (fun c => (d, c))) : e.1 = d := by
  rcases List.mem_map.mp he with ⟨c, _, hc⟩
  subst hc
  rfl

theorem bfsRef_depths_sorted {T : Type} :
    ∀ q : List (Nat × TreeNode T),
      q.Pairwise (fun e f : Nat × TreeNode T => e.1 ≤ f.1) →
      (∀ e ∈ q, ∀ f ∈ q, e.1 ≤ f.1 + 1) →
      (bfsRef q).Pairwise (fun x y : Nat × T => x.1 ≤ y.1) := by
  refine queueInd ?_
  intro q IH
  match q with
  | [] => intro _ _; rw [bfsRef_nil]; exact List.Pairwise.nil
  | (d, n) :: rest =>
    intro hsorted hbound
    rw [bfsRef_cons]
    rcases List.pairwise_cons.mp hsorted with ⟨hhead, hrest⟩
    have hq' : ∀ e ∈ rest ++ n.children.map (fun c => (d + 1, c)), d ≤ e.1 := by
      intro e he
      rcases List.mem_append.mp he with he | he
      · exact hhead e he
      · rw [fst_of_mem_depth_map he]; omega
    refine List.pairwise_cons.mpr ⟨?_, ?_⟩
    · intro y hy
      exact bfsRef_lower_bound d _ hq' y hy
    · refine IH _ (queueSize_step d n rest) ?_ ?_
      · rw [List.pairwise_append]
        refine ⟨hrest, pairwiseLeConst (d + 1) n.children, ?_⟩
        intro e he f hf
        rw [fst_of_mem_depth_map hf]
        exact hbound e (List.mem_cons_of_mem _ he) (d, n) (List.mem_cons_self _ _)
      · intro e he f hf
        rcases List.mem_append.mp he with he | he <;>
          rcases List.mem_append.mp hf with hf | hf
        · exact hbound e (List.mem_cons_of_mem _ he) f (List.mem_cons_of_mem _ hf)
        · rw [fst_of_mem_depth_map hf]
          have := hbound e (List.mem_cons_of_mem _ he) (d, n) (List.mem_cons_self _ _)
          omega
        · rw [fst_of_mem_depth_map he]
          have := hhead f hf
          omega
        · rw [fst_of_mem_depth_map he, fst_of_mem_depth_map hf]
          omega

theorem specDepthsF_map_snd_aux {T : Type} (cs : List (TreeNode T))
    (IH : ∀ c ∈ cs, ∀ d : Nat, (specDepthsT d c).map Prod.snd = treeVals c) :
    ∀ d : Nat, (specDepthsF d cs).map Prod.snd = forestVals cs := by
  induction cs with
  | nil => intro d; simp
  | cons c r ih =>
    intro d
    rw [specDepthsF_cons, List.map_append, IH c (List.mem_cons_self _ _) d,
      ih (fun c' hc' => IH c' (List.mem_cons_of_mem _ hc')) d, forestVals_cons]

theorem specDepthsT_map_snd {T : Type} :
    ∀ n : TreeNode T, ∀ d : Nat, (specDepthsT d n).map Prod.snd = treeVals n := by
  refine treeNodeSizeInd ?_
  intro n IHsize
  cases n with
  | mk v bb cp cs a =>
    intro d
    rw [specDepthsT_mk, treeVals_mk, List.map_cons]
    have h := specDepthsF_map_snd_aux cs
      (fun c hc => IHsize c (size_lt_of_mem_children hc)) (d + 1)
    rw [h]

theorem specDepthsF_map_snd {T : Type} (d : Nat) (cs : List (TreeNode T)) :
    (specDepthsF d cs).map Prod.snd = forestVals cs :=
  specDepthsF_map_snd_aux cs (fun c _ => specDepthsT_map_snd c) d

@[simp] theorem Tree.iterSeq_some {T : Type} (r : TreeNode T) :
    Tree.iterSeq ⟨some r⟩ = r.iterSeq := rfl

@[simp] theorem Tree.intoIterSeq_some {T : Type} (r : TreeNode T) :
    Tree.intoIterSeq ⟨some r⟩ = bfsOwn (r.children.map (fun c => (0, c))) := rfl

@[simp] theorem Tree.rootChildren_some {T : Type} (r : TreeNode T) :
    Tree.rootChildren ⟨some r⟩ = r.children := rfl

theorem iterSeq_perm_spec {T : Type} (n : TreeNode T) :
    (n.iterSeq).Perm (specDepthsF 0 n.children) := by
  rw [TreeNode.iterSeq]
  have h := bfsRef_perm_spec (n.children.map (fun c => (0, c)))
  rw [flatMap_specDepths_map] at h
  exact h

theorem iterSeq_vals_perm {T : Type} (n : TreeNode T) :
    ((n.iterSeq).map Prod.snd).Perm (forestVals n.children) := by
  have h := (iterSeq_perm_spec n).map Prod.snd
  rw [specDepthsF_map_snd] at h
  exact h

/-! ## Hereditary containment invariant -/

/-- Every node of the subtree contains (per `contains_shape`) the values of
all of its strict descendants, hereditarily. -/
inductive Good1 {T : Type} (ops : ShapeOps T) : TreeNode T → Prop where
  | intro : ∀ (v : T) (bb : Aabb) (cp : Point) (cs : List (TreeNode T)) (a : ℚ),
      (∀ w ∈ forestVals cs, ops.contains_shape v w = true) →
      (∀ c ∈ cs, Good1 ops c) →
      Good1 ops (TreeNode.mk v bb cp cs a)

theorem good1_elim {T : Type} {ops : ShapeOps T} {v : T} {bb : Aabb} {cp : Point}
    {cs : List (TreeNode T)} {a : ℚ} (h : Good1 ops (TreeNode.mk v bb cp cs a)) :
    (∀ w ∈ forestVals cs, ops.contains_shape v w = true) ∧ ∀ c ∈ cs, Good1 ops c := by
  cases h with
  | intro _ _ _ _ _ h1 h2 => exact ⟨h1, h2⟩

theorem good1_of_children_nil {T : Type} (ops : ShapeOps T) {n : TreeNode T}
    (h : n.children = []) : Good1 ops n := by
  cases n with
  | mk v bb cp cs a =>
    rw [TreeNode.children_mk] at h
    subst h
    exact Good1.intro v bb cp [] a (by simp) (by simp)

theorem treeVals_of_children_nil {T : Type} {n : TreeNode T}
    (h : n.children = []) : treeVals n = [n.value] := by
  cases n with
  | mk v bb cp cs a =>
    rw [TreeNode.children_mk] at h
    subst h
    simp

theorem addLoc_vals {T : Type} (ops : ShapeOps T) (elem : TreeNode T)
    (cs : List (TreeNode T)) :
    (addLoc ops elem cs).2 = true →
      (forestVals (addLoc ops elem cs).1).Perm (forestVals cs ++ treeVals elem) :=
  addLoc_vals_aux ops elem cs (fun c _ => addTN_vals ops elem c)

theorem addLoc_good_aux {T : Type} (ops : ShapeOps T) (elem : TreeNode T)
    (cs : List (TreeNode T))
    (IH : ∀ c ∈ cs, Good1 ops c → Good1 ops (addTN ops elem c).1)
    (hgood : ∀ c ∈ cs, Good1 ops c) :
    ∀ c' ∈ (addLoc ops elem cs).1, Good1 ops c' := by
  induction cs with
  | nil => simp
  | cons c rest ih =>
    have IHrest : ∀ c'' ∈ rest, Good1 ops c'' → Good1 ops (addTN ops elem c'').1 :=
      fun c'' hc'' => IH c'' (List.mem_cons_of_mem _ hc'')
    have hgoodrest : ∀ c'' ∈ rest, Good1 ops c'' :=
      fun c'' hc'' => hgood c'' (List.mem_cons_of_mem _ hc'')
    have hgoodc : Good1 ops c := hgood c (List.mem_cons_self _ _)
    cases hl : locatedAt ops c elem.center_point
    · rw [addLoc_cons_skip ops elem c rest hl]
      intro c' hc'
      rcases List.mem_cons.mp hc' with hc' | hc'
      · subst hc'; exact hgoodc
      · exact ih IHrest hgoodrest c' hc'
    · rcases h1 : addTN ops elem c with ⟨c2, ok⟩
      cases ok
      · have hc2 : c2 = c := by
          have h2 : (addTN ops elem c).2 = false := by rw [h1]
          have h3 := addTN_snd_false ops elem c h2
          rw [h1] at h3
          exact h3
        rw [hc2] at h1
        rw [addLoc_cons_rej ops elem c rest hl h1]
        intro c' hc'
        rcases List.mem_cons.mp hc' with hc' | hc'
        · subst hc'; exact hgoodc
        · exact ih IHrest hgoodrest c' hc'
      · rw [addLoc_cons_acc ops elem c rest hl h1]
        intro c' hc'
        rcases List.mem_cons.mp hc' with hc' | hc'
        · subst hc'
          have h2 := IH c (List.mem_cons_self _ _) hgoodc
          rw [h1] at h2
          exact h2
        · exact hgood c' (List.mem_cons_of_mem _ hc')

theorem addTN_good {T : Type} (ops : ShapeOps T) (elem : TreeNode T)
    (helem : elem.children = []) :
    ∀ n : TreeNode T, Good1 ops n → Good1 ops (addTN ops elem n).1 := by
  refine treeNodeSizeInd ?_
  intro n IHsize
  cases n with
  | mk v bb cp cs a =>
    intro hg
    obtain ⟨h1, h2⟩ := good1_elim hg
    have IH : ∀ c ∈ cs, Good1 ops c → Good1 ops (addTN ops elem c).1 :=
      fun c hc => IHsize c (size_lt_of_mem_children hc)
    cases hc : ops.contains_shape v elem.value
    · rw [addTN_not_contains ops elem _ (by simpa using hc)]
      exact hg
    · rcases h3 : addLoc ops elem cs with ⟨cs', ok⟩
      cases ok
      · have hcs : cs' = cs := by
          have h4 := addLoc_snd_false ops elem cs (by rw [h3])
          rw [h3] at h4
          exact h4
        subst hcs
        rw [addTN_contains_rej ops elem hc h3]
        refine Good1.intro v bb cp (cs' ++ [elem]) a ?_ ?_
        · intro w hw
          rw [forestVals_append] at hw
          rcases List.mem_append.mp hw with hw | hw
          · exact h1 w hw
          · rw [forestVals_cons, forestVals_nil, List.append_nil,
              treeVals_of_children_nil helem] at hw
            rcases List.mem_singleton.mp hw with hw
            subst hw
            exact hc
        · intro c hcmem
          rcases List.mem_append.mp hcmem with hcmem | hcmem
          · exact h2 c hcmem
          · rcases List.mem_singleton.mp hcmem with h
            subst h
            exact good1_of_children_nil ops helem
      · rw [addTN_contains_acc ops elem hc h3]
        refine Good1.intro v bb cp cs' a ?_ ?_
        · intro w hw
          have h4 := addLoc_vals ops elem cs (by rw [h3])
          rw [h3] at h4
          rcases List.mem_append.mp (h4.mem_iff.mp hw) with hw | hw
          · exact h1 w hw
          · rw [treeVals_of_children_nil helem] at hw
            rcases List.mem_singleton.mp hw with h
            subst h
            exact hc
        · intro c' hc'
          have h4 := addLoc_good_aux ops elem cs IH h2
          rw [h3] at h4
          exact h4 c' hc'

theorem addAll_good {T : Type} (ops : ShapeOps T) (elem : TreeNode T)
    (helem : elem.children = []) (cs : List (TreeNode T))
    (hgood : ∀ c ∈ cs, Good1 ops c) :
    ∀ c' ∈ (addAll ops elem cs).1, Good1 ops c' := by
  induction cs with
  | nil => simp
  | cons c rest ih =>
    have hgoodrest : ∀ c'' ∈ rest, Good1 ops c'' :=
      fun c'' hc'' => hgood c'' (List.mem_cons_of_mem _ hc'')
    have hgoodc : Good1 ops c := hgood c (List.mem_cons_self _ _)
    rcases h1 : addTN ops elem c with ⟨c2, ok⟩
    cases ok
    · have hc2 : c2 = c := by
        have h2 : (addTN ops elem c).2 = false := by rw [h1]
        have h3 := addTN_snd_false ops elem c h2
        rw [h1] at h3
        exact h3
      rw [hc2] at h1
      rw [addAll_cons_rej ops elem c rest h1]
      intro c' hc'
      rcases List.mem_cons.mp hc' with hc' | hc'
      · subst hc'; exact hgoodc
      · exact ih hgoodrest c' hc'
    · rw [addAll_cons_acc ops elem c rest h1]
      intro c' hc'
      rcases List.mem_cons.mp hc' with hc' | hc'
      · subst hc'
        have h2 := addTN_good ops elem helem c hgoodc
        rw [h1] at h2
        exact h2
      · exact hgood c' (List.mem_cons_of_mem _ hc')

theorem addChildren_good {T : Type} (ops : ShapeOps T) (elem : TreeNode T)
    (helem : elem.children = []) (cs : List (TreeNode T))
    (hgood : ∀ c ∈ cs, Good1 ops c) :
    ∀ c' ∈ addChildren ops cs elem, Good1 ops c' := by
  rcases h : addAll ops elem cs with ⟨cs', ok⟩
  cases ok
  · rw [addChildren_eq_rej h]
    have hcs : cs' = cs := by
      have h3 := addAll_snd_false ops elem cs (by rw [h])
      rw [h] at h3
      exact h3
    subst hcs
    intro c' hc'
    rcases List.mem_append.mp hc' with hc' | hc'
    · exact hgood c' hc'
    · rcases List.mem_singleton.mp hc' with h2
      subst h2
      exact good1_of_children_nil ops helem
  · rw [addChildren_eq_acc h]
    have h2 := addAll_good ops elem helem cs hgood
    rw [h] at h2
    exact h2

theorem foldl_addChildren_good {T : Type} (ops : ShapeOps T) :
    ∀ (ns : List (TreeNode T)), (∀ n ∈ ns, n.children = []) →
      ∀ (cs : List (TreeNode T)), (∀ c ∈ cs, Good1 ops c) →
      ∀ c' ∈ ns.foldl (addChildren ops) cs, Good1 ops c' := by
  intro ns
  induction ns with
  | nil => intro _ cs hcs; simpa using hcs
  | cons n rest ih =>
    intro hnil cs hcs
    rw [List.foldl_cons]
    exact ih (fun m hm => hnil m (List.mem_cons_of_mem _ hm))
      (addChildren ops cs n)
      (addChildren_good ops n (hnil n (List.mem_cons_self _ _)) cs hcs)

theorem buildRootPair_good {T : Type} (ops : ShapeOps T) (shapes : List T)
    (rootVal : T) :
    ∀ c ∈ (buildRootPair ops shapes rootVal).children, Good1 ops c := by
  rw [buildRootPair_eq, TreeNode.children_mk, rootForest]
  refine foldl_addChildren_good ops _ ?_ [] (by simp)
  intro n hn
  rcases List.mem_map.mp hn with ⟨x, _, hx⟩
  subst hx
  simp

/-! ## Ancestor extraction from the invariant -/

theorem mem_allNodesF_exists {T : Type} :
    ∀ (cs : List (TreeNode T)) (m : TreeNode T),
      m ∈ allNodesF cs → ∃ c ∈ cs, m ∈ allNodes c := by
  intro cs m
  induction cs with
  | nil => intro h; simp at h
  | cons c r ih =>
    intro h
    rw [allNodesF_cons] at h
    rcases List.mem_append.mp h with h | h
    · exact ⟨c, List.mem_cons_self _ _, h⟩
    · rcases ih h with ⟨c', hc', hm⟩
      exact ⟨c', List.mem_cons_of_mem _ hc', hm⟩

theorem good1_allNodes {T : Type} (ops : ShapeOps T) :
    ∀ n : TreeNode T, Good1 ops n → ∀ m ∈ allNodes n, Good1 ops m := by
  intro n hg
  induction hg with
  | intro v bb cp cs a h1 h2 ih =>
    intro m hm
    rw [allNodes_mk] at hm
    rcases List.mem_cons.mp hm with hm | hm
    · subst hm
      exact Good1.intro v bb cp cs a h1 h2
    · rcases mem_allNodesF_exists cs m hm with ⟨c, hc, hmc⟩
      exact ih c hc m hmc

theorem treeVals_subset_forestVals {T : Type} {c : TreeNode T} :
    ∀ {cs : List (TreeNode T)}, c ∈ cs → ∀ x ∈ treeVals c, x ∈ forestVals cs := by
  intro cs h x hx
  induction cs with
  | nil => cases h
  | cons y r ih =>
    rw [forestVals_cons]
    rcases List.mem_cons.mp h with h | h
    · subst h
      exact List.mem_append.mpr (Or.inl hx)
    · exact List.mem_append.mpr (Or.inr (ih h))

theorem value_mem_treeVals {T : Type} :
    ∀ n : TreeNode T, ∀ m ∈ allNodes n, m.value ∈ treeVals n := by
  refine treeNodeSizeInd ?_
  intro n IHsize
  cases n with
  | mk v bb cp cs a =>
    intro m hm
    rw [allNodes_mk] at hm
    rw [treeVals_mk]
    rcases List.mem_cons.mp hm with hm | hm
    · subst hm
      exact List.mem_cons_self _ _
    · rcases mem_allNodesF_exists cs m hm with ⟨c, hc, hmc⟩
      have h2 := IHsize c (size_lt_of_mem_children hc) m hmc
      exact List.mem_cons_of_mem _ (treeVals_subset_forestVals hc m.value h2)

theorem value_mem_forestVals {T : Type} (cs : List (TreeNode T)) (m : TreeNode T)
    (h : m ∈ allNodesF cs) : m.value ∈ forestVals cs := by
  rcases mem_allNodesF_exists cs m h with ⟨c, hc, hmc⟩
  exact treeVals_subset_forestVals hc m.value (value_mem_treeVals c m hmc)

/-- In a tree built by `From<(Vec<T>, T)>`, every strict ancestor (root
excluded) of a node contains that node's value per `contains_shape`. -/
theorem built_ancestor_contains {T : Type} (ops : ShapeOps T) (shapes : List T)
    (rootVal : T) (nA nB : TreeNode T)
    (hA : nA ∈ allNodesF (buildRootPair ops shapes rootVal).children)
    (hB : nB ∈ allNodesF nA.children) :
    ops.contains_shape nA.value nB.value = true := by
  have hgood : Good1 ops nA := by
    rcases mem_allNodesF_exists _ nA hA with ⟨c, hc, hmc⟩
    exact good1_allNodes ops c (buildRootPair_good ops shapes rootVal c hc) nA hmc
  cases nA with
  | mk v bb cp cs a =>
    obtain ⟨h1, _⟩ := good1_elim hgood
    exact h1 _ (value_mem_forestVals cs nB hB)

/-! ## Cache correctness invariant -/

/-- Every node's cached bounding rectangle, center point and area are the
ones computed from its value at construction, hereditarily. -/
inductive CachesOk {T : Type} (ops : ShapeOps T) : TreeNode T → Prop where
  | intro : ∀ (v : T) (cs : List (TreeNode T)),
      (∀ c ∈ cs, CachesOk ops c) →
      CachesOk ops
        (TreeNode.mk v (ops.bounding_rect v) (ops.center_point v) cs (ops.area v))

theorem cachesOk_mkTreeNode {T : Type} (ops : ShapeOps T) (x : T) :
    CachesOk ops (mkTreeNode ops x) :=
  CachesOk.intro x [] (by simp)

theorem cachesOk_elim {T : Type} {ops : ShapeOps T} {v : T} {bb : Aabb} {cp : Point}
    {cs : List (TreeNode T)} {a : ℚ}
    (h : CachesOk ops (TreeNode.mk v bb cp cs a)) :
    bb = ops.bounding_rect v ∧ cp = ops.center_point v ∧ a = ops.area v ∧
      ∀ c ∈ cs, CachesOk ops c := by
  cases h with
  | intro _ _ h1 => exact ⟨rfl, rfl, rfl, h1⟩

theorem addLoc_caches_aux {T : Type} (ops : ShapeOps T) (elem : TreeNode T)
    (cs : List (TreeNode T))
    (IH : ∀ c ∈ cs, CachesOk ops c → CachesOk ops (addTN ops elem c).1)
    (hok : ∀ c ∈ cs, CachesOk ops c) :
    ∀ c' ∈ (addLoc ops elem cs).1, CachesOk ops c' := by
  induction cs with
  | nil => simp
  | cons c rest ih =>
    have IHrest : ∀ c'' ∈ rest, CachesOk ops c'' → CachesOk ops (addTN ops elem c'').1 :=
      fun c'' hc'' => IH c'' (List.mem_cons_of_mem _ hc'')
    have hokrest : ∀ c'' ∈ rest, CachesOk ops c'' :=
      fun c'' hc'' => hok c'' (List.mem_cons_of_mem _ hc'')
    have hokc : CachesOk ops c := hok c (List.mem_cons_self _ _)
    cases hl : locatedAt ops c elem.center_point
    · rw [addLoc_cons_skip ops elem c rest hl]
      intro c' hc'
      rcases List.mem_cons.mp hc' with hc' | hc'
      · subst hc'; exact hokc
      · exact ih IHrest hokrest c' hc'
    · rcases h1 : addTN ops elem c with ⟨c2, ok⟩
      cases ok
      · have hc2 : c2 = c := by
          have h2 : (addTN ops elem c).2 = false := by rw [h1]
          have h3 := addTN_snd_false ops elem c h2
          rw [h1] at h3
          exact h3
        rw [hc2] at h1
        rw [addLoc_cons_rej ops elem c rest hl h1]
        intro c' hc'
        rcases List.mem_cons.mp hc' with hc' | hc'
        · subst hc'; exact hokc
        · exact ih IHrest hokrest c' hc'
      · rw [addLoc_cons_acc ops elem c rest hl h1]
        intro c' hc'
        rcases List.mem_cons.mp hc' with hc' | hc'
        · subst hc'
          have h2 := IH c (List.mem_cons_self _ _) hokc
          rw [h1] at h2
          exact h2
        · exact hok c' (List.mem_cons_of_mem _ hc')

theorem addTN_caches {T : Type} (ops : ShapeOps T) (elem : TreeNode T)
    (helem : CachesOk ops elem) :
    ∀ n : TreeNode T, CachesOk ops n → CachesOk ops (addTN ops elem n).1 := by
  refine treeNodeSizeInd ?_
  intro n IHsize
  cases n with
  | mk v bb cp cs a =>
    intro hg
    obtain ⟨hbb, hcp, ha, hcs⟩ := cachesOk_elim hg
    subst hbb; subst hcp; subst ha
    have IH : ∀ c ∈ cs, CachesOk ops c → CachesOk ops (addTN ops elem c).1 :=
      fun c hc => IHsize c (size_lt_of_mem_children hc)
    cases hc : ops.contains_shape v elem.value
    · rw [addTN_not_contains ops elem _ (by simpa using hc)]
      exact hg
    · rcases h3 : addLoc ops elem cs with ⟨cs', ok⟩
      cases ok
      · have hcseq : cs' = cs := by
          have h4 := addLoc_snd_false ops elem cs (by rw [h3])
          rw [h3] at h4
          exact h4
        subst hcseq
        rw [addTN_contains_rej ops elem hc h3]
        refine CachesOk.intro v (cs' ++ [elem]) ?_
        intro c hcm
        rcases List.mem_append.mp hcm with hcm | hcm
        · exact hcs c hcm
        · rcases List.mem_singleton.mp hcm with h
          subst h
          exact helem
      · rw [addTN_contains_acc ops elem hc h3]
        refine CachesOk.intro v cs' ?_
        intro c' hc'
        have h4 := addLoc_caches_aux ops elem cs IH hcs
        rw [h3] at h4
        exact h4 c' hc'

theorem addAll_caches {T : Type} (ops : ShapeOps T) (elem : TreeNode T)
    (helem : CachesOk ops elem) (cs : List (TreeNode T))
    (hok : ∀ c ∈ cs, CachesOk ops c) :
    ∀ c' ∈ (addAll ops elem cs).1, CachesOk ops c' := by
  induction cs with
  | nil => simp
  | cons c rest ih =>
    have hokrest : ∀ c'' ∈ rest, CachesOk ops c'' :=
      fun c'' hc'' => hok c'' (List.mem_cons_of_mem _ hc'')
    have hokc : CachesOk ops c := hok c (List.mem_cons_self _ _)
    rcases h1 : addTN ops elem c with ⟨c2, ok⟩
    cases ok
    · have hc2 : c2 = c := by
        have h2 : (addTN ops elem c).2 = false := by rw [h1]
        have h3 := addTN_snd_false ops elem c h2
        rw [h1] at h3
        exact h3
      rw [hc2] at h1
      rw [addAll_cons_rej ops elem c rest h1]
      intro c' hc'
      rcases List.mem_cons.mp hc' with hc' | hc'
      · subst hc'; exact hokc
      · exact ih hokrest c' hc'
    · rw [addAll_cons_acc ops elem c rest h1]
      intro c' hc'
      rcases List.mem_cons.mp hc' with hc' | hc'
      · subst hc'
        have h2 := addTN_caches ops elem helem c hokc
        rw [h1] at h2
        exact h2
      · exact hok c' (List.mem_cons_of_mem _ hc')

theorem addChildren_caches {T : Type} (ops : ShapeOps T) (elem : TreeNode T)
    (helem : CachesOk ops elem) (cs : List (TreeNode T))
    (hok : ∀ c ∈ cs, CachesOk ops c) :
    ∀ c' ∈ addChildren ops cs elem, CachesOk ops c' := by
  rcases h : addAll ops elem cs with ⟨cs', ok⟩
  cases ok
  · rw [addChildren_eq_rej h]
    have hcs : cs' = cs := by
      have h3 := addAll_snd_false ops elem cs (by rw [h])
      rw [h] at h3
      exact h3
    subst hcs
    intro c' hc'
    rcases List.mem_append.mp hc' with hc' | hc'
    · exact hok c' hc'
    · rcases List.mem_singleton.mp hc' with h2
      subst h2
      exact helem
  · rw [addChildren_eq_acc h]
    have h2 := addAll_caches ops elem helem cs hok
    rw [h] at h2
    exact h2

theorem foldl_addChildren_caches {T : Type} (ops : ShapeOps T) :
    ∀ (ns : List (TreeNode T)), (∀ n ∈ ns, CachesOk ops n) →
      ∀ (cs : List (TreeNode T)), (∀ c ∈ cs, CachesOk ops c) →
      ∀ c' ∈ ns.foldl (addChildren ops) cs, CachesOk ops c' := by
  intro ns
  induction ns with
  | nil => intro _ cs hcs; simpa using hcs
  | cons n rest ih =>
    intro hn cs hcs
    rw [List.foldl_cons]
    exact ih (fun m hm => hn m (List.mem_cons_of_mem _ hm))
      (addChildren ops cs n)
      (addChildren_caches ops n (hn n (List.mem_cons_self _ _)) cs hcs)

theorem buildRootPair_caches {T : Type} (ops : ShapeOps T) (shapes : List T)
    (rootVal : T) :
    ∀ c ∈ (buildRootPair ops shapes rootVal).children, CachesOk ops c := by
  rw [buildRootPair_eq, TreeNode.children_mk, rootForest]
  refine foldl_addChildren_caches ops _ ?_ [] (by simp)
  intro n hn
  rcases List.mem_map.mp hn with ⟨x, _, hx⟩
  subst hx
  exact cachesOk_mkTreeNode ops x

theorem cachesOk_allNodes {T : Type} (ops : ShapeOps T) :
    ∀ n : TreeNode T, CachesOk ops n → ∀ m ∈ allNodes n, CachesOk ops m := by
  intro n hg
  induction hg with
  | intro v cs h1 ih =>
    intro m hm
    rw [allNodes_mk] at hm
    rcases List.mem_cons.mp hm with hm | hm
    · subst hm
      exact CachesOk.intro v cs h1
    · rcases mem_allNodesF_exists cs m hm with ⟨c, hc, hmc⟩
      exact ih c hc m hmc

theorem built_node_caches {T : Type} (ops : ShapeOps T) (shapes : List T)
    (rootVal : T) (n : TreeNode T)
    (hn : n ∈ allNodesF (buildRootPair ops shapes rootVal).children) :
    n.bounding_rect = ops.bounding_rect n.value ∧
    n.center_point = ops.center_point n.value ∧
    n.area = ops.area n.value := by
  have hok : CachesOk ops n := by
    rcases mem_allNodesF_exists _ n hn with ⟨c, hc, hmc⟩
    exact cachesOk_allNodes ops c (buildRootPair_caches ops shapes rootVal c hc) n hmc
  cases n with
  | mk v bb cp cs a =>
    obtain ⟨hbb, hcp, ha, _⟩ := cachesOk_elim hok
    simp [hbb, hcp, ha]

/-! ## The polygon realization of the Shape trait -/

/-- Primitive polygon operations supplied by the external `geo` crate:
unsigned area, interior point (may be absent for degenerate polygons),
point containment and bounding rectangle. -/
structure PolyOps (P : Type) where
  unsigned_area : P → ℚ
  interior_point : P → Option Point
  containsPt : P → Point → Bool
  geo_bounding_rect : P → Aabb

/-- `contains_shape` of `impl Shape for Polygon` (tree.rs lines 291-301):
false when the area is smaller, otherwise test the other polygon's interior
point; false when no interior point exists. -/
def polyContainsShape {P : Type} (g : PolyOps P) (a b : P) : Bool :=
  if g.unsigned_area a < g.unsigned_area b then false
  else
    match g.interior_point b with
    | some p => g.containsPt a p
    | none => false

/-- `center_point` of `impl Shape for Polygon` (tree.rs lines 319-326): the
interior point; the source panics when there is none, modelled here by a
default value, and every theorem relying on it assumes the point exists. -/
def polyCenter {P : Type} (g : PolyOps P) (p : P) : Point :=
  (g.interior_point p).getD ((0 : ℚ), (0 : ℚ))

/-- `impl Shape for Polygon` (tree.rs lines 290-331); the `f64` to `f32`
casts are identities in the exact-rational model. -/
def polyShapeOps {P : Type} (g : PolyOps P) : ShapeOps P where
  contains_shape := polyContainsShape g
  contains_point := g.containsPt
  bounding_rect := g.geo_bounding_rect
  center_point := polyCenter g
  area := g.unsigned_area

/-- `Tree::<Polygon>::from_polygon` (tree.rs lines 333-341): stable-sort the
polygons by descending unsigned area, then build via `From<(Vec<T>, T)>`
with an empty polygon as the root value. -/
def fromPolygon {P : Type} (g : PolyOps P) (emptyPoly : P) (shapes : List P) :
    Tree P :=
  fromPair (polyShapeOps g)
    (List.mergeSort shapes (fun l r => decide (g.unsigned_area r ≤ g.unsigned_area l)))
    emptyPoly

/-! ## The area-sort comparator with possibly-NaN floats -/

/-- Three-way comparison of two exact rationals. -/
def ratCmp (a b : ℚ) : Ordering :=
  if a < b then .lt else if b < a then .gt else .eq

/-- `PartialOrd::partial_cmp` on `f32`, with `none` standing for NaN: the
comparison fails exactly when one of the operands is NaN. -/
def floatCmp : Option ℚ → Option ℚ → Option Ordering
  | some a, some b => some (ratCmp a b)
  | _, _ => none

/-- The sort comparator closure of tree.rs line 91 before its `.unwrap()`:
`|l, r| r.area.partial_cmp(&l.area)`, applied to the `Shape::area` results
(cached in the nodes being sorted), where `areaF` gives the possibly-NaN
area of a shape. -/
def sortCmp {T : Type} (areaF : T → Option ℚ) (l r : T) : Option Ordering :=
  floatCmp (areaF r) (areaF l)

/-! ## The vector-path importer boundary -/

/-- Outcome of an importer call: a value, absence (`None`), or a panic. -/
inductive ImportOutcome (A : Type) : Type where
  | ok : A → ImportOutcome A
  | absent : ImportOutcome A
  | panicked : ImportOutcome A

/-- A flattened path event as produced by lyon's flattening iterator
(svg_imports.rs lines 36-58): begin, line, or end (last, first, close). -/
inductive PathEvent : Type where
  | evBegin : Point → PathEvent
  | evLine : Point → Point → PathEvent
  | evEnd : Point → Point → Bool → PathEvent

/-- A parsed SVG document as consumed by `import_to_lines`: the size and
view-box dimensions, and the flattened events of every path node in
document order. -/
structure SvgDoc : Type where
  width : ℚ
  height : ℚ
  vbWidth : ℚ
  vbHeight : ℚ
  paths : List (List PathEvent)

/-- Coordinate transform of svg_imports.rs lines 39-51: scale x by `sx`,
scale the negated y by `sy`. -/
def scalePoint (sx sy : ℚ) (p : Point) : Point :=
  (p.1 * sx, -p.2 * sy)

/-- The event loop of `import_to_lines` (svg_imports.rs lines 30-61): a
begin or line event appends one scaled point to the running point list; an
end event appends the scaled first point, emits the running list as one
loop, and clears it; leftover points that never see an end event are
dropped when the function returns. -/
def processEvents (sx sy : ℚ) :
    List PathEvent → List Point → List (List Point) → List (List Point)
  | [], _, loops => loops
  | (.evBegin a0) :: es, pts, loops =>
      processEvents sx sy es (pts ++ [scalePoint sx sy a0]) loops
  | (.evLine _ to0) :: es, pts, loops =>
      processEvents sx sy es (pts ++ [scalePoint sx sy to0]) loops
  | (.evEnd _ first0 _) :: es, pts, loops =>
      processEvents sx sy es [] (loops ++ [pts ++ [scalePoint sx sy first0]])

/-- `import_to_lines` on a successfully parsed document (svg_imports.rs
lines 18-63): physical size in inches over view-box size gives the scale. -/
def importToLines (doc : SvgDoc) : List (List Point) :=
  processEvents ((doc.width / 96) / doc.vbWidth) ((doc.height / 96) / doc.vbHeight)
    doc.paths.flatten [] []

/-- `import_to_lines` including its `.expect("Could not read svg")` on
line 16: an unparsable document is a panic, not an absent result. -/
def importToLinesChecked (parse : String → Option SvgDoc) (svg : String) :
    ImportOutcome (List (List Point)) :=
  match parse svg with
  | none => .panicked
  | some doc => .ok (importToLines doc)

/-- `import_svg` (svg_imports.rs lines 5-10): `None` when the file cannot be
read, else delegate to `import_to_lines`. -/
def importSvg (readFile : Option String) (parse : String → Option SvgDoc) :
    ImportOutcome (List (List Point)) :=
  match readFile with
  | none => .absent
  | some content => importToLinesChecked parse content

/-! ## A concrete rectangle instance for witnesses -/

/-- Area of an axis-aligned rectangle. -/
def rectArea (r : Aabb) : ℚ := (r.2.1 - r.1.1) * (r.2.2 - r.1.2)

/-- Closed-rectangle point containment. -/
def rectContainsPt (r : Aabb) (p : Point) : Bool :=
  decide (r.1.1 ≤ p.1 ∧ p.1 ≤ r.2.1 ∧ r.1.2 ≤ p.2 ∧ p.2 ≤ r.2.2)

/-- Midpoint of a rectangle, its interior point. -/
def rectMid (r : Aabb) : Point := ((r.1.1 + r.2.1) / 2, (r.1.2 + r.2.2) / 2)

/-- Rectangles realize the primitive polygon operations. -/
def rectGeo : PolyOps Aabb where
  unsigned_area := rectArea
  interior_point := fun r => some (rectMid r)
  containsPt := rectContainsPt
  geo_bounding_rect := fun r => r

/-- The Shape operations induced on rectangles. -/
def rectOps : ShapeOps Aabb := polyShapeOps rectGeo

/-- Square `[0,10] x [0,10]`, area 100. -/
def rA : Aabb := ((0, 0), (10, 10))

/-- Square `[2,8] x [2,8]`, area 36. -/
def rB : Aabb := ((2, 2), (8, 8))

/-- Degenerate default rectangle used as a root value. -/
def rDflt : Aabb := ((0, 0), (0, 0))

/-- The cached node for `rB` (bounding box `rB`, center `(5,5)`, area 36). -/
def nodeB0 : TreeNode Aabb := TreeNode.mk rB rB (5, 5) [] 36

/-- The cached node for `rA` before any child is added. -/
def nodeA0 : TreeNode Aabb := TreeNode.mk rA rA (5, 5) [] 100

/-- The node for `rA` after `rB` has been nested under it. -/
def nodeA1 : TreeNode Aabb := TreeNode.mk rA rA (5, 5) [nodeB0] 100

theorem mkTreeNode_rA : mkTreeNode rectOps rA = nodeA0 := by
  show TreeNode.mk rA (rectOps.bounding_rect rA) (rectOps.center_point rA) []
      (rectOps.area rA) = nodeA0
  rw [nodeA0]
  norm_num [rectOps, polyShapeOps, rectGeo, polyCenter, rectMid, rectArea, rA]

theorem mkTreeNode_rB : mkTreeNode rectOps rB = nodeB0 := by
  show TreeNode.mk rB (rectOps.bounding_rect rB) (rectOps.center_point rB) []
      (rectOps.area rB) = nodeB0
  rw [nodeB0]
  norm_num [rectOps, polyShapeOps, rectGeo, polyCenter, rectMid, rectArea, rB]

theorem addChildren_nil_eq {T : Type} (ops : ShapeOps T) (elem : TreeNode T) :
    addChildren ops [] elem = [elem] := by
  rw [addChildren_eq_rej (addAll_nil ops elem)]
  simp

theorem rect_contains_AB : rectOps.contains_shape rA nodeB0.value = true := by
  norm_num [nodeB0, rectOps, polyShapeOps, polyContainsShape, rectGeo, rectArea,
    rectMid, rectContainsPt, rA, rB]

theorem rect_not_contains_BA : rectOps.contains_shape nodeB0.value nodeA0.value = false := by
  norm_num [nodeB0, nodeA0, rectOps, polyShapeOps, polyContainsShape, rectGeo, rectArea,
    rectMid, rectContainsPt, rA, rB]

theorem addTN_B_into_A : addTN rectOps nodeB0 nodeA0 = (nodeA1, true) := by
  show addTN rectOps nodeB0 (TreeNode.mk rA rA (5, 5) [] 100) = (nodeA1, true)
  rw [addTN_contains_rej rectOps nodeB0 rect_contains_AB (addLoc_nil rectOps nodeB0)]
  rw [nodeA1]
  simp

theorem addAll_B_A : addAll rectOps nodeB0 [nodeA0] = ([nodeA1], true) :=
  addAll_cons_acc rectOps nodeB0 nodeA0 [] addTN_B_into_A

theorem treeAB : buildRootPair rectOps [rA, rB] rDflt =
    TreeNode.mk rDflt ((0, 0), (0, 0)) (0, 0) [nodeA1] 0 := by
  rw [buildRootPair]
  simp only [List.foldl_cons, List.foldl_nil]
  rw [mkTreeNode_rA, mkTreeNode_rB, addNodeCore_mk, addChildren_nil_eq, addNodeCore_mk,
    addChildren_eq_acc addAll_B_A]

theorem addTN_A_into_B : addTN rectOps nodeA0 nodeB0 = (nodeB0, false) := by
  refine addTN_not_contains rectOps nodeA0 nodeB0 ?_
  show rectOps.contains_shape nodeB0.value nodeA0.value = false
  exact rect_not_contains_BA

theorem addAll_A_B : addAll rectOps nodeA0 [nodeB0] = ([nodeB0], false) := by
  rw [addAll_cons_rej rectOps nodeA0 nodeB0 [] addTN_A_into_B]
  simp

theorem treeBA : buildRootPair rectOps [rB, rA] rDflt =
    TreeNode.mk rDflt ((0, 0), (0, 0)) (0, 0) [nodeB0, nodeA0] 0 := by
  rw [buildRootPair]
  simp only [List.foldl_cons, List.foldl_nil]
  rw [mkTreeNode_rB, mkTreeNode_rA, addNodeCore_mk, addChildren_nil_eq, addNodeCore_mk,
    addChildren_eq_rej addAll_A_B]
  simp

theorem iterSeq_AB : Tree.iterSeq (fromPair rectOps [rA, rB] rDflt) =
    [(0, rA), (1, rB)] := by
  show Tree.iterSeq ⟨some (buildRootPair rectOps [rA, rB] rDflt)⟩ = _
  rw [Tree.iterSeq_some, treeAB, TreeNode.iterSeq]
  simp only [TreeNode.children_mk, List.map_cons, List.map_nil, nodeA1, nodeB0]
  rw [bfsRef_cons]
  simp only [TreeNode.value_mk, TreeNode.children_mk, List.nil_append, List.map_cons,
    List.map_nil]
  rw [bfsRef_cons]
  simp only [TreeNode.value_mk, TreeNode.children_mk, List.nil_append, List.map_nil,
    bfsRef_nil]

theorem iterSeq_BA : Tree.iterSeq (fromPair rectOps [rB, rA] rDflt) =
    [(0, rB), (0, rA)] := by
  show Tree.iterSeq ⟨some (buildRootPair rectOps [rB, rA] rDflt)⟩ = _
  rw [Tree.iterSeq_some, treeBA, TreeNode.iterSeq]
  simp only [TreeNode.children_mk, List.map_cons, List.map_nil, nodeB0, nodeA0]
  rw [bfsRef_cons]
  simp only [TreeNode.value_mk, TreeNode.children_mk, List.nil_append, List.append_nil,
    List.map_nil]
  rw [bfsRef_cons]
  simp only [TreeNode.value_mk, TreeNode.children_mk, List.append_nil, List.nil_append,
    List.map_nil, bfsRef_nil]

/-- Membership of the `rA` node among all nodes of the tree built from
`[rA, rB]`. -/
theorem memA1 : nodeA1 ∈ allNodesF ((fromPair rectOps [rA, rB] rDflt).rootChildren) := by
  show nodeA1 ∈ allNodesF ((⟨some (buildRootPair rectOps [rA, rB] rDflt)⟩ : Tree Aabb).rootChildren)
  rw [Tree.rootChildren_some, treeAB, TreeNode.children_mk, allNodesF_cons, allNodesF_nil]
  rw [show allNodes nodeA1 = nodeA1 :: allNodesF [nodeB0] from by rw [nodeA1, allNodes_mk]]
  exact List.mem_append.mpr (Or.inl (List.mem_cons_self _ _))

/-- Membership of the `rB` node among the strict descendants of the `rA` node. -/
theorem memB0 : nodeB0 ∈ allNodesF nodeA1.children := by
  rw [nodeA1, TreeNode.children_mk, allNodesF_cons, allNodesF_nil,
    show allNodes nodeB0 = nodeB0 :: allNodesF [] from by rw [nodeB0, allNodes_mk, allNodesF_nil]]
  exact List.mem_append.mpr (Or.inl (List.mem_cons_self _ _))

/-! ## Shared helper results about the two constructors -/

theorem fromPair_vals_perm {T : Type} (ops : ShapeOps T) (shapes : List T)
    (rootVal : T) :
    (((fromPair ops shapes rootVal).iterSeq).map Prod.snd).Perm shapes := by
  show ((TreeNode.iterSeq (buildRootPair ops shapes rootVal)).map Prod.snd).Perm shapes
  exact (iterSeq_vals_perm _).trans (buildRootPair_children_vals ops shapes rootVal)

theorem fromIter_vals_perm {T : Type} (ops : ShapeOps T) (dflt : T)
    (shapes : List T) :
    (((fromIter ops dflt shapes).iterSeq).map Prod.snd).Perm shapes := by
  rw [fromIter_root_eq, Tree.iterSeq_some]
  refine (iterSeq_vals_perm _).trans ?_
  rw [TreeNode.children_mk, rootForest]
  refine (rootForest_vals ops _ []).trans ?_
  rw [forestVals_nil, List.nil_append]
  refine List.Perm.trans
    (List.Perm.flatMap_right treeVals (List.mergeSort_perm _ nodeAreaGe)) ?_
  rw [flatMap_treeVals_map_mk]

/-! ## The claims -/

/-- C1: every input shape appears exactly once in a full traversal of the
built tree (no shape lost or duplicated): for both collection constructors,
the traversal's value sequence is a permutation of the input collection and
its length equals the number of inserted shapes. The traversal queue is
seeded with the root's direct children only, so the root node's own value is
never yielded (it is not part of the permutation). -/
theorem claim1_completeness {T : Type} (ops : ShapeOps T) (shapes : List T)
    (rootVal dflt : T) :
    (((fromPair ops shapes rootVal).iterSeq).map Prod.snd).Perm shapes ∧
    ((fromPair ops shapes rootVal).iterSeq).length = shapes.length ∧
    (((fromIter ops dflt shapes).iterSeq).map Prod.snd).Perm shapes ∧
    ((fromIter ops dflt shapes).iterSeq).length = shapes.length := by
  have h1 := fromPair_vals_perm ops shapes rootVal
  have h2 := fromIter_vals_perm ops dflt shapes
  refine ⟨h1, ?_, h2, ?_⟩
  · have h3 := h1.length_eq
    rwa [List.length_map] at h3
  · have h3 := h2.length_eq
    rwa [List.length_map] at h3

/-- C2: in a built tree, whenever node `A` is a proper ancestor of node `B`
(the root excluded — both range over the forest below the root), the polygon
containment test recorded at insertion gives `A.area() >= B.area()` and that
`B`'s representative interior point satisfies `A.contains_point`. The
invariant is established at insertion and there is no later mutation. -/
theorem claim2_containment_monotonic {P : Type} (g : PolyOps P) (shapes : List P)
    (rootVal : P) (nA nB : TreeNode P)
    (hA : nA ∈ allNodesF ((fromPair (polyShapeOps g) shapes rootVal).rootChildren))
    (hB : nB ∈ allNodesF nA.children) :
    (polyShapeOps g).area nB.value ≤ (polyShapeOps g).area nA.value ∧
    (polyShapeOps g).contains_point nA.value
      ((polyShapeOps g).center_point nB.value) = true := by
  have hc : polyContainsShape g nA.value nB.value = true :=
    built_ancestor_contains (polyShapeOps g) shapes rootVal nA nB hA hB
  rw [polyContainsShape] at hc
  by_cases harea : g.unsigned_area nA.value < g.unsigned_area nB.value
  · rw [if_pos harea] at hc
    cases hc
  · rw [if_neg harea] at hc
    rcases hip : g.interior_point nB.value with _ | p
    · rw [hip] at hc
      simp at hc
    · rw [hip] at hc
      refine ⟨le_of_not_lt harea, ?_⟩
      show g.containsPt nA.value (polyCenter g nB.value) = true
      rw [polyCenter, hip]
      exact hc

/-- C4: the polygon containment test returns true iff the area comparison
`A.area() >= B.area()` holds and `B`'s representative interior point
satisfies `A.contains_point` — for `B` with a valid representative point
(the `f64` areas compared by the source and the `f32` areas reported by
`area()` coincide in the exact-rational model). -/
theorem claim4_contains_shape_iff {P : Type} (g : PolyOps P) (a b : P) (p : Point)
    (hb : g.interior_point b = some p) :
    ((polyShapeOps g).contains_shape a b = true ↔
      ((polyShapeOps g).area b ≤ (polyShapeOps g).area a ∧
       (polyShapeOps g).contains_point a ((polyShapeOps g).center_point b) = true)) := by
  have hcenter : (polyShapeOps g).center_point b = p := by
    show polyCenter g b = p
    rw [polyCenter, hb]
    rfl
  rw [hcenter]
  show polyContainsShape g a b = true ↔
    g.unsigned_area b ≤ g.unsigned_area a ∧ g.containsPt a p = true
  rw [polyContainsShape, hb]
  by_cases harea : g.unsigned_area a < g.unsigned_area b
  · rw [if_pos harea]
    constructor
    · intro h
      cases h
    · rintro ⟨h1, _⟩
      exact absurd harea (not_lt.mpr h1)
  · rw [if_neg harea]
    constructor
    · intro h
      exact ⟨le_of_not_lt harea, h⟩
    · rintro ⟨_, h2⟩
      exact h2

/-- C5: the borrowing traversal is breadth-first: the yielded depth sequence
is non-decreasing (all of depth `d` before any of depth `d + 1`), and the
traversal is a permutation of the spec's depth annotation, which tags every
node with its number of proper ancestors, the root excluded (direct children
of the root at depth 0, a node's children at its depth plus one). -/
theorem claim5_breadth_first {T : Type} (t : Tree T) :
    ((t.iterSeq).map Prod.fst).Pairwise (· ≤ ·) ∧
    (t.iterSeq).Perm (specDepthsF 0 t.rootChildren) := by
  rcases t with ⟨root⟩
  cases root with
  | none =>
    constructor
    · show (List.map Prod.fst []).Pairwise (· ≤ ·)
      simp
    · show List.Perm [] (specDepthsF 0 [])
      simp
  | some r =>
    constructor
    · rw [Tree.iterSeq_some, TreeNode.iterSeq, List.pairwise_map]
      refine bfsRef_depths_sorted _ (pairwiseLeConst 0 r.children) ?_
      intro e he f hf
      rw [fst_of_mem_depth_map he]
      omega
    · rw [Tree.iterSeq_some, Tree.rootChildren_some]
      exact iterSeq_perm_spec r

/-- C6: on every node of a built tree, the point-distance function returns 0
when the node's shape contains the query point per `contains_point`, and
otherwise the squared Euclidean distance from the node's cached
representative point — which is exactly the representative point of its
value — to the query point. -/
theorem claim6_point_distance {T : Type} (ops : ShapeOps T) (shapes : List T)
    (rootVal : T) (n : TreeNode T) (q : Point)
    (hn : n ∈ allNodesF ((fromPair ops shapes rootVal).rootChildren)) :
    nodeDist2 ops n q =
      if ops.contains_point n.value q then 0
      else dist2 (ops.center_point n.value) q := by
  have h := built_node_caches ops shapes rootVal n hn
  rw [nodeDist2, h.2.1]

/-- C9: the borrowing traversal and the consuming traversal of any tree
yield the same sequence of (depth, value) pairs. -/
theorem claim9_iterators_agree {T : Type} (t : Tree T) :
    t.iterSeq = t.intoIterSeq := by
  rcases t with ⟨root⟩
  cases root with
  | none => rfl
  | some r =>
    rw [Tree.iterSeq_some, Tree.intoIterSeq_some, TreeNode.iterSeq]
    exact bfsRef_eq_bfsOwn _

/-- C3 counterexample: `[rA, rB]` is the descending-area ordering of the
input `[rB, rA]`, yet `From<(Vec<T>, T)>` on the unsorted input yields an
observably different tree than on the sorted input — so that constructor
does not sort its input before inserting. -/
theorem claim3_cex :
    ([rA, rB].Pairwise (fun x y : Aabb => rectOps.area y ≤ rectOps.area x) ∧
     [rA, rB].Perm [rB, rA]) ∧
    Tree.iterSeq (fromPair rectOps [rB, rA] rDflt) ≠
      Tree.iterSeq (fromPair rectOps [rA, rB] rDflt) := by
  refine ⟨⟨?_, List.Perm.swap rB rA []⟩, ?_⟩
  · simp only [List.pairwise_cons, List.mem_singleton, List.not_mem_nil,
      false_implies, implies_true, List.Pairwise.nil, and_true]
    intro y hy
    subst hy
    show rectOps.area rB ≤ rectOps.area rA
    norm_num [rectOps, polyShapeOps, rectGeo, rectArea, rA, rB]
  · rw [iterSeq_BA, iterSeq_AB]
    intro h
    simp [rA, rB] at h

theorem node_area_of_mem_map {T : Type} (ops : ShapeOps T) {shapes : List T}
    {n : TreeNode T} (hn : n ∈ shapes.map (mkTreeNode ops)) :
    n.area = ops.area n.value ∧ mkTreeNode ops n.value = n := by
  rcases List.mem_map.mp hn with ⟨x, _, hx⟩
  subst hx
  simp [mkTreeNode]

theorem nodeAreaGe_trans {T : Type} (a b c : TreeNode T)
    (h1 : nodeAreaGe a b) (h2 : nodeAreaGe b c) : nodeAreaGe a c := by
  simp only [nodeAreaGe, decide_eq_true_eq] at h1 h2 ⊢
  exact le_trans h2 h1

theorem nodeAreaGe_total {T : Type} (a b : TreeNode T) :
    nodeAreaGe a b || nodeAreaGe b a := by
  simp only [nodeAreaGe, Bool.or_eq_true, decide_eq_true_eq]
  exact le_total _ _

/-- C3 amended: the `FromIterator` constructor does sort: there is a
descending-area reordering of the input such that its tree has the same
children forest as inserting that reordering, in order, through
`From<(Vec<T>, T)>`; and `from_polygon` sorts by descending unsigned area
before delegating to `From<(Vec<T>, T)>`. The `From<(Vec<T>, T)>` and
`From<Vec<T>>` constructors themselves insert in the order given. -/
theorem claim3_amended_sorting {T Q : Type} (ops : ShapeOps T) (dflt : T)
    (shapes : List T) (g : PolyOps Q) (emptyPoly : Q) (polys : List Q) :
    (∃ sorted : List T,
      sorted.Perm shapes ∧
      sorted.Pairwise (fun x y => ops.area y ≤ ops.area x) ∧
      (fromIter ops dflt shapes).rootChildren =
        (fromPair ops sorted dflt).rootChildren) ∧
    (∃ sortedP : List Q,
      sortedP.Perm polys ∧
      sortedP.Pairwise (fun x y => g.unsigned_area y ≤ g.unsigned_area x) ∧
      fromPolygon g emptyPoly polys = fromPair (polyShapeOps g) sortedP emptyPoly) := by
  constructor
  · refine ⟨(List.mergeSort (shapes.map (mkTreeNode ops)) nodeAreaGe).map TreeNode.value,
      ?_, ?_, ?_⟩
    · have hp := (List.mergeSort_perm (shapes.map (mkTreeNode ops)) nodeAreaGe).map
        TreeNode.value
      rw [List.map_map] at hp
      have heq : shapes.map (TreeNode.value ∘ mkTreeNode ops) = shapes := by
        have h2 : ∀ x ∈ shapes, (TreeNode.value ∘ mkTreeNode ops) x = id x := by
          intro x _
          rfl
        rw [List.map_congr_left h2, List.map_id]
      rwa [heq] at hp
    · have hs := @List.sorted_mergeSort _ nodeAreaGe nodeAreaGe_trans
        nodeAreaGe_total (shapes.map (mkTreeNode ops))
      rw [List.pairwise_map]
      refine hs.imp_of_mem ?_
      intro a b ha hb hab
      have ha2 := node_area_of_mem_map ops (List.mem_mergeSort.mp ha)
      have hb2 := node_area_of_mem_map ops (List.mem_mergeSort.mp hb)
      simp only [nodeAreaGe, decide_eq_true_eq] at hab
      rw [ha2.1, hb2.1] at hab
      exact hab
    · rw [fromIter_root_eq, Tree.rootChildren_some, TreeNode.children_mk]
      show rootForest ops _ = (buildRootPair ops _ dflt).children
      rw [buildRootPair_eq, TreeNode.children_mk, List.map_map]
      have h2 : (List.mergeSort (shapes.map (mkTreeNode ops)) nodeAreaGe).map
          (mkTreeNode ops ∘ TreeNode.value) =
          List.mergeSort (shapes.map (mkTreeNode ops)) nodeAreaGe := by
        have h3 : ∀ n ∈ List.mergeSort (shapes.map (mkTreeNode ops)) nodeAreaGe,
            (mkTreeNode ops ∘ TreeNode.value) n = id n := by
          intro n hn
          exact (node_area_of_mem_map ops (List.mem_mergeSort.mp hn)).2
        rw [List.map_congr_left h3, List.map_id]
      rw [h2]
  · refine ⟨List.mergeSort polys
      (fun l r => decide (g.unsigned_area r ≤ g.unsigned_area l)), ?_, ?_, rfl⟩
    · exact List.mergeSort_perm _ _
    · have hs := @List.sorted_mergeSort _
        (fun l r => decide (g.unsigned_area r ≤ g.unsigned_area l))
        (fun a b c h1 h2 => by
          simp only [decide_eq_true_eq] at h1 h2 ⊢
          exact le_trans h2 h1)
        (fun a b => by
          simp only [Bool.or_eq_true, decide_eq_true_eq]
          exact le_total _ _)
        polys
      refine hs.imp ?_
      intro a b hab
      simpa using hab

/-- C7: under the Shape contract precondition that every inserted shape's
area is an actual (non-NaN) non-negative number, the area-sort comparator
`|l, r| r.area.partial_cmp(&l.area)` succeeds on every pair of input shapes
(its `.unwrap()` failure branch is unreachable), and construction via
`FromIterator` is total: it yields a tree traversing to exactly the input
shapes. -/
theorem claim7_sort_total {T : Type} (ops : ShapeOps T) (areaF : T → Option ℚ)
    (dflt : T) (shapes : List T)
    (hval : ∀ s ∈ shapes, areaF s = some (ops.area s))
    (_hnn : ∀ s ∈ shapes, 0 ≤ ops.area s) :
    (∀ l ∈ shapes, ∀ r ∈ shapes, (sortCmp areaF l r).isSome = true) ∧
    (((fromIter ops dflt shapes).iterSeq).map Prod.snd).Perm shapes := by
  refine ⟨?_, fromIter_vals_perm ops dflt shapes⟩
  intro l hl r hr
  rw [sortCmp, hval r hr, hval l hl]
  rfl

/-- C8 counterexample: a readable file whose content the SVG parser rejects
makes `import_svg` panic (via `.expect`), which is a failure mode other than
absence — refuting that malformed vector-path data is surfaced as `None`. -/
theorem claim8_cex :
    importSvg (some "bad") (fun _ => none) = ImportOutcome.panicked ∧
    (ImportOutcome.panicked : ImportOutcome (List (List Point))) ≠
      ImportOutcome.absent ∧
    importSvg none (fun _ : String => none) = ImportOutcome.absent := by
  refine ⟨rfl, ?_, rfl⟩
  intro h
  exact ImportOutcome.noConfusion h

/-- C8 amended: an unreadable source is surfaced as absence of a result; a
readable source whose content fails to parse causes a panic (the `.expect`
on the parser result), not absence; a successfully parsed document yields
the complete converted loop list — never a partial one. -/
theorem claim8_amended_importer (readFile : Option String)
    (parse : String → Option SvgDoc) :
    (readFile = none → importSvg readFile parse = ImportOutcome.absent) ∧
    (∀ c : String, readFile = some c → parse c = none →
      importSvg readFile parse = ImportOutcome.panicked) ∧
    (∀ (c : String) (doc : SvgDoc), readFile = some c → parse c = some doc →
      importSvg readFile parse = ImportOutcome.ok (importToLines doc)) := by
  refine ⟨?_, ?_, ?_⟩
  · intro h
    subst h
    rfl
  · intro c hc hp
    subst hc
    show importToLinesChecked parse c = ImportOutcome.panicked
    rw [importToLinesChecked, hp]
  · intro c doc hc hp
    subst hc
    show importToLinesChecked parse c = ImportOutcome.ok (importToLines doc)
    rw [importToLinesChecked, hp]

theorem addAll_no_contains {T : Type} (ops : ShapeOps T) (elem : TreeNode T) :
    ∀ cs : List (TreeNode T),
      (∀ c ∈ cs, ops.contains_shape c.value elem.value = false) →
      addAll ops elem cs = (cs, false) := by
  intro cs
  induction cs with
  | nil => intro _; exact addAll_nil ops elem
  | cons c rest ih =>
    intro h
    have h1 : addTN ops elem c = (c, false) :=
      addTN_not_contains ops elem c (h c (List.mem_cons_self _ _))
    rw [addAll_cons_rej ops elem c rest h1,
      ih (fun c' hc' => h c' (List.mem_cons_of_mem _ hc'))]

/-- C10: `From<(Vec<T>, T)>` never consults the supplied root value's
geometry: the root keeps the given value but its cached bounding box, center
point and area are zeros whatever the value is; the built child forest does
not depend on the root value at all; top-level `add_node` attaches a shape
as a direct child of the root whenever no existing child's shape contains
it; and every shape enters the tree (traversal length equals input length),
even when the root value contains none of them. -/
theorem claim10_root_geometry_ignored {T : Type} (ops : ShapeOps T)
    (shapes : List T) (r r2 v : T) (cs : List (TreeNode T))
    (h : ∀ c ∈ cs, ops.contains_shape c.value v = false) :
    (buildRootPair ops shapes r).value = r ∧
    (buildRootPair ops shapes r).bounding_rect = ((0, 0), (0, 0)) ∧
    (buildRootPair ops shapes r).center_point = (0, 0) ∧
    (buildRootPair ops shapes r).area = 0 ∧
    (fromPair ops shapes r).rootChildren = (fromPair ops shapes r2).rootChildren ∧
    addChildren ops cs (mkTreeNode ops v) = cs ++ [mkTreeNode ops v] ∧
    ((fromPair ops shapes r).iterSeq).length = shapes.length := by
  refine ⟨?_, ?_, ?_, ?_, ?_, ?_, ?_⟩
  · rw [buildRootPair_eq]
    simp
  · rw [buildRootPair_eq]
    simp
  · rw [buildRootPair_eq]
    simp
  · rw [buildRootPair_eq]
    simp
  · show (buildRootPair ops shapes r).children = (buildRootPair ops shapes r2).children
    rw [buildRootPair_eq, buildRootPair_eq, TreeNode.children_mk, TreeNode.children_mk]
  · refine addChildren_eq_rej (addAll_no_contains ops (mkTreeNode ops v) cs ?_)
    simpa using h
  · have h1 := (fromPair_vals_perm ops shapes r).length_eq
    rwa [List.length_map] at h1

/-! ## Witnesses -/

/-- Witness for C2 at the concrete two-square tree: the `rA` node is an
ancestor of the `rB` node, and the containment conclusions hold there. -/
theorem claim2_witness :
    nodeA1 ∈ allNodesF ((fromPair (polyShapeOps rectGeo) [rA, rB] rDflt).rootChildren) ∧
    nodeB0 ∈ allNodesF nodeA1.children ∧
    ((polyShapeOps rectGeo).area nodeB0.value ≤ (polyShapeOps rectGeo).area nodeA1.value ∧
     (polyShapeOps rectGeo).contains_point nodeA1.value
       ((polyShapeOps rectGeo).center_point nodeB0.value) = true) :=
  ⟨memA1, memB0,
    claim2_containment_monotonic rectGeo [rA, rB] rDflt nodeA1 nodeB0 memA1 memB0⟩

/-- Witness for C4 at concrete squares: `rB` has the valid representative
point `(5, 5)` and the equivalence holds for `rA`, `rB`. -/
theorem claim4_witness :
    rectGeo.interior_point rB = some (5, 5) ∧
    ((polyShapeOps rectGeo).contains_shape rA rB = true ↔
      ((polyShapeOps rectGeo).area rB ≤ (polyShapeOps rectGeo).area rA ∧
       (polyShapeOps rectGeo).contains_point rA
         ((polyShapeOps rectGeo).center_point rB) = true)) := by
  have hb : rectGeo.interior_point rB = some (5, 5) := by
    show some (rectMid rB) = some (5, 5)
    norm_num [rectMid, rB]
  exact ⟨hb, claim4_contains_shape_iff rectGeo rA rB (5, 5) hb⟩

/-- Witness for C6 at a concrete built node and query point. -/
theorem claim6_witness :
    nodeA1 ∈ allNodesF ((fromPair rectOps [rA, rB] rDflt).rootChildren) ∧
    nodeDist2 rectOps nodeA1 (20, 20) =
      (if rectOps.contains_point nodeA1.value (20, 20) then 0
       else dist2 (rectOps.center_point nodeA1.value) (20, 20)) :=
  ⟨memA1, claim6_point_distance rectOps [rA, rB] rDflt nodeA1 (20, 20) memA1⟩

/-- Witness for C7 at the concrete squares: both preconditions hold and the
theorem applies. -/
theorem claim7_witness :
    (∀ s ∈ [rA, rB], 0 ≤ rectOps.area s) ∧
    ((∀ l ∈ [rA, rB], ∀ r ∈ [rA, rB],
        (sortCmp (fun t => some (rectArea t)) l r).isSome = true) ∧
     (((fromIter rectOps rDflt [rA, rB]).iterSeq).map Prod.snd).Perm [rA, rB]) := by
  have hnn : ∀ s ∈ [rA, rB], 0 ≤ rectOps.area s := by
    intro s hs
    rcases List.mem_cons.mp hs with h | h
    · subst h
      norm_num [rectOps, polyShapeOps, rectGeo, rectArea, rA]
    · rcases List.mem_singleton.mp h with h
      subst h
      norm_num [rectOps, polyShapeOps, rectGeo, rectArea, rB]
  exact ⟨hnn, claim7_sort_total rectOps (fun t => some (rectArea t)) rDflt [rA, rB]
    (fun s _ => rfl) hnn⟩

/-- Witness for C8 at concrete importer inputs: an unreadable file gives
absence and an unparsable readable file gives a panic. -/
theorem claim8_witness :
    importSvg none (fun _ : String => none) = ImportOutcome.absent ∧
    importSvg (some "x") (fun _ => none) = ImportOutcome.panicked :=
  ⟨(claim8_amended_importer none (fun _ => none)).1 rfl,
    (claim8_amended_importer (some "x") (fun _ => none)).2.1 "x" rfl rfl⟩

/-- Witness for C10 at concrete data: the single existing child (the `rB`
node) does not contain `rA`, and the theorem applies. -/
theorem claim10_witness :
    (∀ c ∈ [nodeB0], rectOps.contains_shape c.value rA = false) ∧
    ((buildRootPair rectOps [rA] rDflt).value = rDflt ∧
     (buildRootPair rectOps [rA] rDflt).bounding_rect = ((0, 0), (0, 0)) ∧
     (buildRootPair rectOps [rA] rDflt).center_point = (0, 0) ∧
     (buildRootPair rectOps [rA] rDflt).area = 0 ∧
     (fromPair rectOps [rA] rDflt).rootChildren =
       (fromPair rectOps [rA] rB).rootChildren ∧
     addChildren rectOps [nodeB0] (mkTreeNode rectOps rA) =
       [nodeB0] ++ [mkTreeNode rectOps rA] ∧
     ((fromPair rectOps [rA] rDflt).iterSeq).length = [rA].length) := by
  have h : ∀ c ∈ [nodeB0], rectOps.contains_shape c.value rA = false := by
    intro c hc
    rcases List.mem_singleton.mp hc with h
    subst h
    exact rect_not_contains_BA
  exact ⟨h, claim10_root_geometry_ignored rectOps [rA] rDflt rB rA [nodeB0] h⟩

end DepthTree
